import Mathlib

/-!
# Verification of the fks_scripts statistical evaluation framework

The repository's test and demo scripts (`test_evaluation_framework.py`,
`demo_asmbtr_evaluation.py`) exercise a statistical evaluation core:
confusion-matrix classification metrics, a chi-square independence test,
Bonferroni and Benjamini-Hochberg multiple-testing corrections, a variant
comparator and a per-segment evaluator.  The module implementing that core
(`evaluation/statistical_tests.py`, `evaluation/confusion_matrix.py`,
`strategies/asmbtr/evaluation.py`) is not part of the repository's sources;
its contract is reconstructed in the specification from the call sites and
literal assertions of those scripts.  The definitions below therefore model
that missing core from the specification's words, over exact rationals.
-/

namespace FksEval

/-- Modelled from the spec: `apply_bonferroni(p_values, alpha)` from the
missing module `evaluation/statistical_tests.py`.  For each raw p-value it
returns `adjusted_i = min(1.0, raw_i * n_tests)` and
`significant_i = (adjusted_i <= alpha)`, in input order; `n_tests` defaults
to the number of supplied p-values but may be supplied larger. -/
def apply_bonferroni (p_values : List ℚ) (alpha : ℚ) (n_tests : ℕ) :
    List Bool × List ℚ :=
  let adjusted := p_values.map (fun p => min 1 (p * (n_tests : ℚ)))
  (adjusted.map (fun a => decide (a ≤ alpha)), adjusted)

theorem apply_bonferroni_sig_length (p_values : List ℚ) (alpha : ℚ) (n_tests : ℕ) :
    (apply_bonferroni p_values alpha n_tests).1.length = p_values.length := by
  simp [apply_bonferroni]

theorem apply_bonferroni_adj_length (p_values : List ℚ) (alpha : ℚ) (n_tests : ℕ) :
    (apply_bonferroni p_values alpha n_tests).2.length = p_values.length := by
  simp [apply_bonferroni]

theorem apply_bonferroni_adj_getD (p_values : List ℚ) (alpha : ℚ) (n_tests : ℕ)
    {i : ℕ} (hi : i < p_values.length) :
    (apply_bonferroni p_values alpha n_tests).2.getD i 0
      = min 1 (p_values.getD i 0 * n_tests) := by
  simp [apply_bonferroni, List.getD_eq_getElem?_getD, List.getElem?_map,
    List.getElem?_eq_getElem hi]

theorem apply_bonferroni_sig_getD (p_values : List ℚ) (alpha : ℚ) (n_tests : ℕ)
    {i : ℕ} (hi : i < p_values.length) :
    (apply_bonferroni p_values alpha n_tests).1.getD i false
      = decide ((apply_bonferroni p_values alpha n_tests).2.getD i 0 ≤ alpha) := by
  simp [apply_bonferroni, List.getD_eq_getElem?_getD, List.getElem?_map,
    List.getElem?_eq_getElem hi]

/-- C1: for every p-value list, alpha and family size `n_tests` at least the
number of supplied p-values, `apply_bonferroni` returns, for each input
`raw_i`, exactly `adjusted_i = min(1, raw_i * n_tests)` and
`significant_i = (adjusted_i <= alpha)`; and on
`p_values = [0.01, 0.04, 0.03, 0.50]`, `alpha = 0.05`, `n_tests = 4` it
returns `adjusted = [0.04, 0.16, 0.12, 1.0]` and
`significant = [true, false, false, false]`. -/
theorem C1_bonferroni_exact (p_values : List ℚ) (alpha : ℚ) (n_tests : ℕ)
    (hn : p_values.length ≤ n_tests) (i : ℕ) (hi : i < p_values.length) :
    ((apply_bonferroni p_values alpha n_tests).2.getD i 0
        = min 1 (p_values.getD i 0 * n_tests)
      ∧ (apply_bonferroni p_values alpha n_tests).1.getD i false
        = decide ((apply_bonferroni p_values alpha n_tests).2.getD i 0 ≤ alpha))
    ∧ apply_bonferroni [1/100, 1/25, 3/100, 1/2] (1/20) 4
        = ([true, false, false, false], [1/25, 4/25, 3/25, 1]) := by
  refine ⟨⟨apply_bonferroni_adj_getD p_values alpha n_tests hi,
    apply_bonferroni_sig_getD p_values alpha n_tests hi⟩, ?_⟩
  simp only [apply_bonferroni, List.map_cons, List.map_nil]
  norm_num

/-- Closed witness for C1 at a concrete input. -/
theorem C1_bonferroni_exact_witness :
    ([(1 : ℚ)/100, 1/25, 3/100, 1/2].length ≤ 4 ∧ 0 < [(1 : ℚ)/100, 1/25, 3/100, 1/2].length)
    ∧ (((apply_bonferroni [1/100, 1/25, 3/100, 1/2] (1/20) 4).2.getD 0 0
        = min 1 ([(1 : ℚ)/100, 1/25, 3/100, 1/2].getD 0 0 * 4)
      ∧ (apply_bonferroni [1/100, 1/25, 3/100, 1/2] (1/20) 4).1.getD 0 false
        = decide ((apply_bonferroni [1/100, 1/25, 3/100, 1/2] (1/20) 4).2.getD 0 0 ≤ 1/20))
    ∧ apply_bonferroni [1/100, 1/25, 3/100, 1/2] (1/20) 4
        = ([true, false, false, false], [1/25, 4/25, 3/25, 1])) :=
  ⟨⟨by norm_num, by norm_num⟩,
    C1_bonferroni_exact [1/100, 1/25, 3/100, 1/2] (1/20) 4 (by norm_num) 0 (by norm_num)⟩

/-! ## Benjamini-Hochberg step-up correction

Modelled from the spec: sort the p-values ascending as `p_(1) <= ... <= p_(n)`,
find the largest rank `k` with `p_(k) <= (k/m) * alpha` (`m = n_tests`), mark
every rank `<= k` significant, give rank `k` the adjusted value
`min(1, min over k' >= k of p_(k') * m / k')`, and map both outputs back to
the caller's original order. -/

/-- Suffix disjunction over ranks: `true` iff some rank `k' >= k` (where `k`
is the 1-based rank of the head of `l`) satisfies `p_(k') <= (k'/m) * alpha`.
A sorted rank is BH-significant exactly when this holds at it. -/
def bhAnyFrom (m : ℕ) (alpha : ℚ) : ℕ → List ℚ → Bool
  | _, [] => false
  | k, v :: rest => decide (v ≤ (k : ℚ) / (m : ℚ) * alpha) || bhAnyFrom m alpha (k + 1) rest

/-- Suffix minimum over ranks: `min(1, min over k' >= k of p_(k') * m / k')`,
the BH step-up adjusted value of the sorted rank `k` heading `l`. -/
def bhMinFrom (m : ℕ) : ℕ → List ℚ → ℚ
  | _, [] => 1
  | k, v :: rest => min (min 1 (v * (m : ℚ) / (k : ℚ))) (bhMinFrom m (k + 1) rest)

/-- The per-rank BH significance flags of the ascending-sorted p-values,
ranks starting at `k`. -/
def bhSigListAux (m : ℕ) (alpha : ℚ) : ℕ → List ℚ → List Bool
  | _, [] => []
  | k, v :: rest =>
    (decide (v ≤ (k : ℚ) / (m : ℚ) * alpha) || bhAnyFrom m alpha (k + 1) rest)
      :: bhSigListAux m alpha (k + 1) rest

/-- The per-rank BH adjusted p-values of the ascending-sorted p-values,
ranks starting at `k`. -/
def bhAdjListAux (m : ℕ) : ℕ → List ℚ → List ℚ
  | _, [] => []
  | k, v :: rest =>
    min (min 1 (v * (m : ℚ) / (k : ℚ))) (bhMinFrom m (k + 1) rest)
      :: bhAdjListAux m (k + 1) rest

/-- The p-values paired with their original indices, sorted ascending by
p-value (ties keep input order). -/
def bhSorted (p_values : List ℚ) : List (ℕ × ℚ) :=
  p_values.enum.mergeSort (fun a b => decide (a.2 ≤ b.2))

/-- The caller's p-values in ascending order: `p_(1) <= ... <= p_(n)`. -/
def sortedVals (p_values : List ℚ) : List ℚ := (bhSorted p_values).map Prod.snd

/-- Modelled from the spec: `apply_benjamini_hochberg(p_values, alpha)` from
the missing module `evaluation/statistical_tests.py` (step-up FDR control).
The p-values are sorted ascending together with their original indices, the
per-rank significance flags and adjusted values are computed on the sorted
family of declared size `n_tests`, and both sequences are mapped back to the
caller's original order, so `result[i]` corresponds to `p_values[i]`.
`n_tests` defaults to the number of supplied p-values. -/
def apply_benjamini_hochberg (p_values : List ℚ) (alpha : ℚ) (n_tests : ℕ) :
    List Bool × List ℚ :=
  let sorted := bhSorted p_values
  let svals := sortedVals p_values
  let sigs := bhSigListAux n_tests alpha 1 svals
  let adjs := bhAdjListAux n_tests 1 svals
  ((List.range p_values.length).map (fun i =>
      match sorted.findIdx? (fun e => e.1 == i) with
      | some r => sigs.getD r false
      | none => false),
   (List.range p_values.length).map (fun i =>
      match sorted.findIdx? (fun e => e.1 == i) with
      | some r => adjs.getD r 1
      | none => 1))

theorem bhSigListAux_length (m : ℕ) (alpha : ℚ) (k : ℕ) (l : List ℚ) :
    (bhSigListAux m alpha k l).length = l.length := by
  induction l generalizing k with
  | nil => rfl
  | cons v rest ih => simpa [bhSigListAux] using ih (k + 1)

theorem bhAdjListAux_length (m : ℕ) (k : ℕ) (l : List ℚ) :
    (bhAdjListAux m k l).length = l.length := by
  induction l generalizing k with
  | nil => rfl
  | cons v rest ih => simpa [bhAdjListAux] using ih (k + 1)

theorem bhSigListAux_getD (m : ℕ) (alpha : ℚ) (k : ℕ) (l : List ℚ)
    {r : ℕ} (hr : r < l.length) :
    (bhSigListAux m alpha k l).getD r false = bhAnyFrom m alpha (k + r) (l.drop r) := by
  induction l generalizing k r with
  | nil => simp at hr
  | cons v rest ih =>
    cases r with
    | zero => simp [bhSigListAux, bhAnyFrom]
    | succ r =>
      have hr' : r < rest.length := by simpa using hr
      have := ih (k + 1) hr'
      simpa [bhSigListAux, Nat.add_assoc, Nat.add_comm 1 r] using this

theorem bhAdjListAux_getD (m : ℕ) (k : ℕ) (l : List ℚ)
    {r : ℕ} (hr : r < l.length) :
    (bhAdjListAux m k l).getD r 1 = bhMinFrom m (k + r) (l.drop r) := by
  induction l generalizing k r with
  | nil => simp at hr
  | cons v rest ih =>
    cases r with
    | zero => simp [bhAdjListAux, bhMinFrom]
    | succ r =>
      have hr' : r < rest.length := by simpa using hr
      have := ih (k + 1) hr'
      simpa [bhAdjListAux, Nat.add_assoc, Nat.add_comm 1 r] using this

theorem bhAnyFrom_iff_exists (m : ℕ) (alpha : ℚ) (k : ℕ) (l : List ℚ) :
    bhAnyFrom m alpha k l = true
      ↔ ∃ j, ∃ hj : j < l.length, l.get ⟨j, hj⟩ ≤ ((k + j : ℕ) : ℚ) / (m : ℚ) * alpha := by
  induction l generalizing k with
  | nil => simp [bhAnyFrom]
  | cons v rest ih =>
    simp only [bhAnyFrom, Bool.or_eq_true, decide_eq_true_eq, ih (k + 1)]
    constructor
    · rintro (h | ⟨j, hj, h⟩)
      · exact ⟨0, by simp, by simpa using h⟩
      · refine ⟨j + 1, by simpa using Nat.succ_lt_succ hj, ?_⟩
        simpa [Nat.add_assoc, Nat.add_comm 1 j] using h
    · rintro ⟨j, hj, h⟩
      cases j with
      | zero => exact Or.inl (by simpa using h)
      | succ j =>
        refine Or.inr ⟨j, by simpa using Nat.lt_of_succ_lt_succ hj, ?_⟩
        simpa [Nat.add_assoc, Nat.add_comm 1 j] using h

theorem le_bhMinFrom (m : ℕ) (k : ℕ) (l : List ℚ) (x : ℚ) (hx1 : x ≤ 1)
    (hterm : ∀ j, ∀ hj : j < l.length, x ≤ l.get ⟨j, hj⟩ * (m : ℚ) / ((k + j : ℕ) : ℚ)) :
    x ≤ bhMinFrom m k l := by
  induction l generalizing k with
  | nil => simpa [bhMinFrom] using hx1
  | cons v rest ih =>
    refine le_min (le_min hx1 ?_) (ih (k + 1) ?_)
    · simpa using hterm 0 (by simp)
    · intro j hj
      have := hterm (j + 1) (by simpa using Nat.succ_lt_succ hj)
      simpa [Nat.add_assoc, Nat.add_comm 1 j] using this

theorem bhMinFrom_le_one (m : ℕ) (k : ℕ) (l : List ℚ) : bhMinFrom m k l ≤ 1 := by
  cases l with
  | nil => simp [bhMinFrom]
  | cons v rest =>
    exact le_trans (min_le_left _ _) (le_trans (min_le_left _ _) le_rfl)

theorem bhMinFrom_le_term (m : ℕ) (k : ℕ) (l : List ℚ) {j : ℕ} (hj : j < l.length) :
    bhMinFrom m k l ≤ l.get ⟨j, hj⟩ * (m : ℚ) / ((k + j : ℕ) : ℚ) := by
  induction l generalizing k j with
  | nil => simp at hj
  | cons v rest ih =>
    cases j with
    | zero =>
      exact le_trans (min_le_left _ _) (by simpa using min_le_right 1 (v * (m : ℚ) / (k : ℚ)))
    | succ j =>
      have := ih (k + 1) (j := j) (by simpa using Nat.lt_of_succ_lt_succ hj)
      refine le_trans (min_le_right _ _) ?_
      simpa [Nat.add_assoc, Nat.add_comm 1 j] using this

/-- Absorption of a duplicated sorted head into the BH suffix minimum: a tied
p-value contributes a weaker term at the smaller rank, so the suffix minimum
is unchanged. -/
theorem bhMinFrom_cons_cons (m : ℕ) (k : ℕ) (v : ℚ) (rest : List ℚ)
    (hk : 1 ≤ k) (hv : 0 ≤ v) :
    bhMinFrom m k (v :: v :: rest) = bhMinFrom m (k + 1) (v :: rest) := by
  have habs : bhMinFrom m (k + 1) (v :: rest) ≤ min 1 (v * (m : ℚ) / (k : ℚ)) := by
    refine le_min (bhMinFrom_le_one _ _ _) ?_
    have h0 : bhMinFrom m (k + 1) (v :: rest) ≤ v * (m : ℚ) / ((k + 1 : ℕ) : ℚ) := by
      simpa using bhMinFrom_le_term m (k + 1) (v :: rest) (j := 0) (by simp)
    refine le_trans h0 ?_
    have hkpos : (0 : ℚ) < (k : ℚ) := by exact_mod_cast hk
    exact div_le_div_of_nonneg_left (by positivity) hkpos (by exact_mod_cast Nat.le_succ k)
  show min (min 1 (v * (m : ℚ) / (k : ℚ))) (bhMinFrom m (k + 1) (v :: rest))
      = bhMinFrom m (k + 1) (v :: rest)
  exact min_eq_right habs

/-- Absorption of a duplicated sorted head into the BH suffix disjunction:
if the significance condition holds at the smaller rank of a tied p-value,
it also holds at some larger rank. -/
theorem bhAnyFrom_cons_cons (m : ℕ) (alpha : ℚ) (k : ℕ) (v : ℚ) (rest : List ℚ)
    (hk : 1 ≤ k) (hv : 0 ≤ v) :
    bhAnyFrom m alpha k (v :: v :: rest) = bhAnyFrom m alpha (k + 1) (v :: rest) := by
  show (decide (v ≤ (k : ℚ) / (m : ℚ) * alpha) || bhAnyFrom m alpha (k + 1) (v :: rest))
      = bhAnyFrom m alpha (k + 1) (v :: rest)
  by_cases hcon : v ≤ (k : ℚ) / (m : ℚ) * alpha
  · have h' : v ≤ ((k + 1 : ℕ) : ℚ) / (m : ℚ) * alpha := by
      rcases Nat.eq_zero_or_pos m with hm | hm
      · simpa [hm] using hcon
      · have hmpos : (0 : ℚ) < (m : ℚ) := by exact_mod_cast hm
        have hkpos : (0 : ℚ) < (k : ℚ) := by exact_mod_cast hk
        rcases le_or_lt 0 alpha with ha | ha
        · refine le_trans hcon (mul_le_mul_of_nonneg_right ?_ ha)
          have hkk : (k : ℚ) ≤ ((k + 1 : ℕ) : ℚ) := by exact_mod_cast Nat.le_succ k
          have h1m : (0 : ℚ) ≤ 1 / (m : ℚ) := by positivity
          calc (k : ℚ) / (m : ℚ) = (k : ℚ) * (1 / (m : ℚ)) := by ring
            _ ≤ ((k + 1 : ℕ) : ℚ) * (1 / (m : ℚ)) := mul_le_mul_of_nonneg_right hkk h1m
            _ = ((k + 1 : ℕ) : ℚ) / (m : ℚ) := by ring
        · exact absurd hcon (not_le.mpr (lt_of_lt_of_le
            (mul_neg_of_pos_of_neg (by positivity) ha) hv))
    have hR : bhAnyFrom m alpha (k + 1) (v :: rest) = true := by
      simp only [bhAnyFrom, Bool.or_eq_true, decide_eq_true_eq]
      exact Or.inl h'
    simp [hR]
  · simp [hcon]

/-- Order statistic for an ascending-sorted list: a downward-closed predicate
holds at position `r` iff at least `r + 1` elements of the list satisfy it. -/
theorem sorted_pred_iff_countP (q : ℚ → Bool)
    (hq : ∀ a b : ℚ, a ≤ b → q b = true → q a = true)
    (s : List ℚ) (hs : s.Pairwise (· ≤ ·)) {r : ℕ} (hr : r < s.length) :
    q (s.get ⟨r, hr⟩) = true ↔ r + 1 ≤ s.countP q := by
  induction s generalizing r with
  | nil => simp at hr
  | cons v rest ih =>
    have hv := (List.pairwise_cons.mp hs).1
    have hrest := (List.pairwise_cons.mp hs).2
    have hzero : ¬ q v = true → rest.countP q = 0 := by
      intro hqv
      rw [List.countP_eq_zero]
      intro b hb hqb
      exact hqv (hq v b (hv b hb) hqb)
    cases r with
    | zero =>
      have hget : (v :: rest).get ⟨0, hr⟩ = v := rfl
      rw [hget, List.countP_cons]
      by_cases hqv : q v = true
      · rw [if_pos hqv]
        exact ⟨fun _ => by omega, fun _ => hqv⟩
      · rw [if_neg hqv, hzero hqv]
        exact ⟨fun h => absurd h hqv, fun h => absurd h (by omega)⟩
    | succ r =>
      have hr' : r < rest.length := by simpa using Nat.lt_of_succ_lt_succ hr
      have hget : (v :: rest).get ⟨r + 1, hr⟩ = rest.get ⟨r, hr'⟩ := rfl
      rw [hget, List.countP_cons]
      by_cases hqv : q v = true
      · rw [ih hrest hr', if_pos hqv]
        omega
      · rw [if_neg hqv, hzero hqv]
        have hL : ¬ q (rest.get ⟨r, hr'⟩) = true := by
          intro hqb
          exact hqv (hq v _ (hv _ (List.get_mem rest r hr')) hqb)
        exact ⟨fun h => absurd h hL, fun h => absurd h (by omega)⟩

theorem bhSorted_perm (p_values : List ℚ) : (bhSorted p_values).Perm p_values.enum :=
  List.mergeSort_perm _ _

theorem bhSorted_length (p_values : List ℚ) :
    (bhSorted p_values).length = p_values.length := by
  simpa using (bhSorted_perm p_values).length_eq

theorem sortedVals_length (p_values : List ℚ) :
    (sortedVals p_values).length = p_values.length := by
  simp [sortedVals, bhSorted_length]

theorem sortedVals_perm (p_values : List ℚ) : (sortedVals p_values).Perm p_values := by
  have := (bhSorted_perm p_values).map Prod.snd
  simpa [sortedVals, List.enum_map_snd] using this

theorem bhSorted_pairwise (p_values : List ℚ) :
    (bhSorted p_values).Pairwise (fun a b : ℕ × ℚ => a.2 ≤ b.2) := by
  have h := @List.sorted_mergeSort (ℕ × ℚ) (fun a b : ℕ × ℚ => decide (a.2 ≤ b.2))
    (fun a b c hab hbc => by
      simp only [decide_eq_true_eq] at hab hbc ⊢
      exact le_trans hab hbc)
    (fun a b => by
      simp only [Bool.or_eq_true, decide_eq_true_eq]
      exact le_total a.2 b.2)
    p_values.enum
  exact h.imp (by simp)

theorem sortedVals_pairwise (p_values : List ℚ) :
    (sortedVals p_values).Pairwise (· ≤ ·) :=
  (bhSorted_pairwise p_values).map Prod.snd (fun _ _ h => h)

/-- The sorted value list of the BH machinery is exactly the merge sort of
the raw p-values. -/
theorem sortedVals_eq_mergeSort (p_values : List ℚ) :
    sortedVals p_values = p_values.mergeSort (fun a b => decide (a ≤ b)) := by
  refine List.eq_of_perm_of_sorted ?_ (sortedVals_pairwise p_values)
    (List.sorted_mergeSort' p_values)
  exact (sortedVals_perm p_values).trans (List.mergeSort_perm p_values _).symm

theorem mem_bhSorted (p_values : List ℚ) {i : ℕ} {v : ℚ} :
    (i, v) ∈ bhSorted p_values ↔ p_values[i]? = some v := by
  rw [(bhSorted_perm p_values).mem_iff]
  exact List.mem_enum_iff_getElem?

/-- Every original index is found in the sorted association list, and the
pair found at it carries that index's own p-value. -/
theorem bhSorted_findIdx (p_values : List ℚ) {i : ℕ} (hi : i < p_values.length) :
    ∃ r, ∃ hr : r < (bhSorted p_values).length,
      List.findIdx? (fun e : ℕ × ℚ => e.1 == i) (bhSorted p_values) = some r
      ∧ (bhSorted p_values).get ⟨r, hr⟩ = (i, p_values.get ⟨i, hi⟩) := by
  have hmem : ((i, p_values.get ⟨i, hi⟩) : ℕ × ℚ) ∈ bhSorted p_values := by
    rw [mem_bhSorted]
    simp [List.getElem?_eq_getElem hi]
  have hex : ∃ x ∈ bhSorted p_values, (fun e : ℕ × ℚ => e.1 == i) x = true :=
    ⟨_, hmem, by simp⟩
  have hlt := List.findIdx_lt_length_of_exists hex
  refine ⟨List.findIdx (fun e : ℕ × ℚ => e.1 == i) (bhSorted p_values), hlt,
    List.findIdx?_eq_some_of_exists hex, ?_⟩
  have h1 : ((bhSorted p_values).get ⟨_, hlt⟩).1 = i := by
    have := @List.findIdx_getElem (ℕ × ℚ) (fun e : ℕ × ℚ => e.1 == i)
      (bhSorted p_values) hlt
    simpa using this
  have hmem2 : (bhSorted p_values).get ⟨_, hlt⟩ ∈ bhSorted p_values :=
    List.get_mem _ _ hlt
  have hpair : (((bhSorted p_values).get ⟨_, hlt⟩).1,
      ((bhSorted p_values).get ⟨_, hlt⟩).2) ∈ bhSorted p_values := by
    simpa using hmem2
  rw [h1, mem_bhSorted, List.getElem?_eq_getElem hi] at hpair
  have h2 : ((bhSorted p_values).get ⟨_, hlt⟩).2 = p_values.get ⟨i, hi⟩ := by
    have := Option.some.inj hpair
    simp [this]
  exact Prod.ext h1 h2

theorem apply_bh_sig_length (p_values : List ℚ) (alpha : ℚ) (n_tests : ℕ) :
    (apply_benjamini_hochberg p_values alpha n_tests).1.length = p_values.length := by
  simp [apply_benjamini_hochberg]

theorem apply_bh_adj_length (p_values : List ℚ) (alpha : ℚ) (n_tests : ℕ) :
    (apply_benjamini_hochberg p_values alpha n_tests).2.length = p_values.length := by
  simp [apply_benjamini_hochberg]

/-- Unfolding of the mapped-back significance output at an original index,
given where that index sits in the sorted family. -/
theorem apply_bh_sig_getD_of_findIdx (p_values : List ℚ) (alpha : ℚ) (n_tests : ℕ)
    {i r : ℕ} (hi : i < p_values.length)
    (hfind : List.findIdx? (fun e : ℕ × ℚ => e.1 == i) (bhSorted p_values) = some r) :
    (apply_benjamini_hochberg p_values alpha n_tests).1.getD i false
      = (bhSigListAux n_tests alpha 1 (sortedVals p_values)).getD r false := by
  have hlen : i < (List.range p_values.length).length := by simpa using hi
  simp only [apply_benjamini_hochberg]
  rw [List.getD_eq_getElem _ _ (by simpa using hi), List.getElem_map,
    List.getElem_range, hfind]

/-- Unfolding of the mapped-back adjusted output at an original index. -/
theorem apply_bh_adj_getD_of_findIdx (p_values : List ℚ) (alpha : ℚ) (n_tests : ℕ)
    {i r : ℕ} (hi : i < p_values.length)
    (hfind : List.findIdx? (fun e : ℕ × ℚ => e.1 == i) (bhSorted p_values) = some r) :
    (apply_benjamini_hochberg p_values alpha n_tests).2.getD i 1
      = (bhAdjListAux n_tests 1 (sortedVals p_values)).getD r 1 := by
  simp only [apply_benjamini_hochberg]
  rw [List.getD_eq_getElem _ _ (by simpa using hi), List.getElem_map,
    List.getElem_range, hfind]

/-- The BH cutoff: the largest 1-based rank `k` of the ascending-sorted
p-values with `p_(k) <= (k/m) * alpha` (0 when no rank qualifies). -/
def bhKmax (m : ℕ) (alpha : ℚ) (svals : List ℚ) : ℕ :=
  Nat.findGreatest
    (fun k => 1 ≤ k ∧ svals.getD (k - 1) 0 ≤ (k : ℚ) / (m : ℚ) * alpha)
    svals.length

/-- A sorted rank carries a qualifying rank at or above it exactly when it
lies at or below the BH cutoff rank. -/
theorem bhAnyFrom_drop_iff_kmax (m : ℕ) (alpha : ℚ) (svals : List ℚ)
    {r : ℕ} (hr : r < svals.length) :
    bhAnyFrom m alpha (1 + r) (svals.drop r) = true
      ↔ r + 1 ≤ bhKmax m alpha svals := by
  rw [bhAnyFrom_iff_exists]
  constructor
  · rintro ⟨j, hj, hle⟩
    have hrj : r + j < svals.length := by
      have := hj
      rw [List.length_drop] at this
      omega
    have hget : (svals.drop r).get ⟨j, hj⟩ = svals.get ⟨r + j, hrj⟩ := by
      simp [List.getElem_drop]
    have hP : 1 ≤ r + j + 1
        ∧ svals.getD (r + j + 1 - 1) 0 ≤ ((r + j + 1 : ℕ) : ℚ) / (m : ℚ) * alpha := by
      refine ⟨by omega, ?_⟩
      rw [Nat.add_sub_cancel, List.getD_eq_getElem _ _ hrj]
      have : (1 + r + j : ℕ) = (r + j + 1 : ℕ) := by omega
      rw [hget] at hle
      simpa [this] using hle
    have hle' := Nat.le_findGreatest
      (P := fun k => 1 ≤ k ∧ svals.getD (k - 1) 0 ≤ (k : ℚ) / (m : ℚ) * alpha)
      (by omega : r + j + 1 ≤ svals.length) hP
    exact le_trans (by omega) hle'
  · intro hk
    have hspec := (Nat.findGreatest_eq_iff.mp
      (rfl : Nat.findGreatest
        (fun k => 1 ≤ k ∧ svals.getD (k - 1) 0 ≤ (k : ℚ) / (m : ℚ) * alpha)
        svals.length = bhKmax m alpha svals))
    have hkn : bhKmax m alpha svals ≤ svals.length := hspec.1
    have hkpos : bhKmax m alpha svals ≠ 0 := by omega
    obtain ⟨hk1, hkle⟩ := hspec.2.1 hkpos
    refine ⟨bhKmax m alpha svals - 1 - r, ?_, ?_⟩
    · rw [List.length_drop]; omega
    · have hidx : r + (bhKmax m alpha svals - 1 - r) = bhKmax m alpha svals - 1 := by
        omega
      have hlt : bhKmax m alpha svals - 1 < svals.length := by omega
      have hget : (svals.drop r).get ⟨bhKmax m alpha svals - 1 - r, by
          rw [List.length_drop]; omega⟩ = svals.get ⟨bhKmax m alpha svals - 1, hlt⟩ := by
        simp [List.getElem_drop, hidx]
      rw [hget]
      have hnat : (1 + r + (bhKmax m alpha svals - 1 - r) : ℕ)
          = bhKmax m alpha svals := by omega
      rw [hnat]
      have hkle' : svals.getD (bhKmax m alpha svals - 1) 0
          ≤ ((bhKmax m alpha svals : ℕ) : ℚ) / (m : ℚ) * alpha := hkle
      rw [List.getD_eq_getElem _ _ hlt] at hkle'
      exact hkle'

/-- Per-index BH characterization: each original index `i` sits at some
sorted rank `r + 1` holding its own p-value; its significance flag is set
exactly when that rank is at most the BH cutoff, and its adjusted value is
the capped suffix minimum of `p_(k) * m / k` from that rank on. -/
theorem apply_bh_getD_spec (p_values : List ℚ) (alpha : ℚ) (n_tests : ℕ)
    {i : ℕ} (hi : i < p_values.length) :
    ∃ r, ∃ hr : r < (sortedVals p_values).length,
      (sortedVals p_values).get ⟨r, hr⟩ = p_values.get ⟨i, hi⟩
      ∧ ((apply_benjamini_hochberg p_values alpha n_tests).1.getD i false = true
          ↔ r + 1 ≤ bhKmax n_tests alpha (sortedVals p_values))
      ∧ (apply_benjamini_hochberg p_values alpha n_tests).2.getD i 1
          = bhMinFrom n_tests (1 + r) ((sortedVals p_values).drop r) := by
  obtain ⟨r, hr, hfind, hpair⟩ := bhSorted_findIdx p_values hi
  have hrs : r < (sortedVals p_values).length := by
    simpa [sortedVals] using hr
  refine ⟨r, hrs, ?_, ?_, ?_⟩
  · show (List.map Prod.snd (bhSorted p_values)).get ⟨r, hrs⟩ = p_values.get ⟨i, hi⟩
    have : (List.map Prod.snd (bhSorted p_values)).get ⟨r, hrs⟩
        = ((bhSorted p_values).get ⟨r, hr⟩).2 := by
      simp
    rw [this, hpair]
  · rw [apply_bh_sig_getD_of_findIdx p_values alpha n_tests hi hfind,
      bhSigListAux_getD n_tests alpha 1 (sortedVals p_values) hrs,
      bhAnyFrom_drop_iff_kmax n_tests alpha (sortedVals p_values) hrs]
  · rw [apply_bh_adj_getD_of_findIdx p_values alpha n_tests hi hfind,
      bhAdjListAux_getD n_tests 1 (sortedVals p_values) hrs]

/-- C2: `apply_benjamini_hochberg` sorts the p-values ascending, marks
significant exactly the sorted ranks at most the largest rank `k` with
`p_(k) <= (k/m) * alpha` (`m = n_tests`), gives rank `k` the adjusted value
`min(1, min over k' >= k of p_(k') * m / k')`, and maps both sequences back
to the caller's original order: `result[i]` carries input `p_values[i]`'s
rank, flag and adjusted value. -/
theorem C2_benjamini_hochberg_spec (p_values : List ℚ) (alpha : ℚ) (n_tests : ℕ) :
    sortedVals p_values = p_values.mergeSort (fun a b => decide (a ≤ b))
    ∧ (sortedVals p_values).Pairwise (· ≤ ·)
    ∧ (apply_benjamini_hochberg p_values alpha n_tests).1.length = p_values.length
    ∧ (apply_benjamini_hochberg p_values alpha n_tests).2.length = p_values.length
    ∧ ∀ i, ∀ hi : i < p_values.length,
        ∃ r, ∃ hr : r < (sortedVals p_values).length,
          (sortedVals p_values).get ⟨r, hr⟩ = p_values.get ⟨i, hi⟩
          ∧ ((apply_benjamini_hochberg p_values alpha n_tests).1.getD i false = true
              ↔ r + 1 ≤ bhKmax n_tests alpha (sortedVals p_values))
          ∧ (apply_benjamini_hochberg p_values alpha n_tests).2.getD i 1
              = bhMinFrom n_tests (1 + r) ((sortedVals p_values).drop r) :=
  ⟨sortedVals_eq_mergeSort p_values, sortedVals_pairwise p_values,
    apply_bh_sig_length p_values alpha n_tests,
    apply_bh_adj_length p_values alpha n_tests,
    fun _ hi => apply_bh_getD_spec p_values alpha n_tests hi⟩

/-- Closed witness for C2 at the concrete family of the repository's test
script, instantiating the per-index clause at index 0. -/
theorem C2_benjamini_hochberg_spec_witness :
    ∃ r, ∃ hr : r < (sortedVals [(1 : ℚ)/100, 1/25, 3/100, 1/2]).length,
      (sortedVals [(1 : ℚ)/100, 1/25, 3/100, 1/2]).get ⟨r, hr⟩
        = ([(1 : ℚ)/100, 1/25, 3/100, 1/2]).get ⟨0, by norm_num⟩
      ∧ ((apply_benjamini_hochberg [(1 : ℚ)/100, 1/25, 3/100, 1/2] (1/20) 4).1.getD 0 false = true
          ↔ r + 1 ≤ bhKmax 4 (1/20) (sortedVals [(1 : ℚ)/100, 1/25, 3/100, 1/2]))
      ∧ (apply_benjamini_hochberg [(1 : ℚ)/100, 1/25, 3/100, 1/2] (1/20) 4).2.getD 0 1
          = bhMinFrom 4 (1 + r) ((sortedVals [(1 : ℚ)/100, 1/25, 3/100, 1/2]).drop r) :=
  (C2_benjamini_hochberg_spec [(1 : ℚ)/100, 1/25, 3/100, 1/2] (1/20) 4).2.2.2.2
    0 (by norm_num)

/-- Bonferroni monotonicity: each adjusted p-value dominates its raw one. -/
theorem apply_bonferroni_adj_ge (p_values : List ℚ) (alpha : ℚ) (n_tests : ℕ)
    (hp : ∀ x ∈ p_values, 0 ≤ x ∧ x ≤ 1) (hm : 1 ≤ n_tests)
    {i : ℕ} (hi : i < p_values.length) :
    p_values.getD i 0 ≤ (apply_bonferroni p_values alpha n_tests).2.getD i 0 := by
  rw [apply_bonferroni_adj_getD p_values alpha n_tests hi,
    List.getD_eq_getElem _ _ hi]
  have hv := hp p_values[i] (List.getElem_mem hi)
  refine le_min hv.2 ?_
  have hmq : (1 : ℚ) ≤ (n_tests : ℚ) := by exact_mod_cast hm
  nlinarith [hv.1]

/-- Benjamini-Hochberg monotonicity: each mapped-back adjusted p-value
dominates its raw one. -/
theorem apply_bh_adj_ge (p_values : List ℚ) (alpha : ℚ) (n_tests : ℕ)
    (hp : ∀ x ∈ p_values, 0 ≤ x ∧ x ≤ 1) (hm : p_values.length ≤ n_tests)
    {i : ℕ} (hi : i < p_values.length) :
    p_values.getD i 0 ≤ (apply_benjamini_hochberg p_values alpha n_tests).2.getD i 1 := by
  obtain ⟨r, hr, hval, _, hadj⟩ := apply_bh_getD_spec p_values alpha n_tests hi
  rw [List.getD_eq_getElem _ _ hi, hadj]
  have hv := hp p_values[i] (List.getElem_mem hi)
  refine le_bhMinFrom _ _ _ _ hv.2 ?_
  intro j hj
  have hrj : r + j < (sortedVals p_values).length := by
    rw [List.length_drop] at hj; omega
  have hget : ((sortedVals p_values).drop r).get ⟨j, hj⟩
      = (sortedVals p_values).get ⟨r + j, hrj⟩ := by
    simp [List.getElem_drop]
  rw [hget]
  have hval' : (sortedVals p_values).get ⟨r, hr⟩ = p_values[i] := hval
  have hvw : p_values[i] ≤ (sortedVals p_values).get ⟨r + j, hrj⟩ := by
    rcases Nat.eq_zero_or_pos j with h0 | hpos
    · subst h0
      rw [← hval']
      exact le_of_eq (by rfl)
    · have hlt : (⟨r, hr⟩ : Fin (sortedVals p_values).length)
          < ⟨r + j, hrj⟩ := by
        exact Fin.mk_lt_mk.mpr (by omega)
      have := List.pairwise_iff_get.mp (sortedVals_pairwise p_values)
        ⟨r, hr⟩ ⟨r + j, hrj⟩ hlt
      rw [← hval']
      exact this
  have hw_mem : (sortedVals p_values).get ⟨r + j, hrj⟩ ∈ p_values :=
    (sortedVals_perm p_values).mem_iff.mp (List.get_mem _ _ hrj)
  have hw := hp _ hw_mem
  have hk : (1 + r + j : ℕ) ≤ n_tests := by
    have : r + j < p_values.length := by
      rw [sortedVals_length] at hrj; exact hrj
    omega
  have hkpos : (0 : ℚ) < ((1 + r + j : ℕ) : ℚ) := by
    exact_mod_cast Nat.succ_le_of_lt (by omega : 0 < 1 + r + j)
  have h1 : (sortedVals p_values).get ⟨r + j, hrj⟩
      ≤ (sortedVals p_values).get ⟨r + j, hrj⟩ * (n_tests : ℚ)
        / ((1 + r + j : ℕ) : ℚ) := by
    rw [le_div_iff₀ hkpos]
    have hcast : ((1 + r + j : ℕ) : ℚ) ≤ (n_tests : ℚ) := by exact_mod_cast hk
    nlinarith [hw.1]
  exact le_trans hvw h1

/-- Rank-free BH significance of a single p-value `v` within the family
`p_values`: some rank `k` of the family satisfies both `v <= (k/m) * alpha`
and "at least `k` of the family's p-values are `<= (k/m) * alpha`".  This
depends only on `v` and the multiset of family values, not on tie order. -/
def bhSigVal (p_values : List ℚ) (alpha : ℚ) (m : ℕ) (v : ℚ) : Bool :=
  (List.range p_values.length).any (fun j =>
    decide (v ≤ ((j + 1 : ℕ) : ℚ) / (m : ℚ) * alpha)
    && decide (j + 1 ≤ p_values.countP
        (fun q => decide (q ≤ ((j + 1 : ℕ) : ℚ) / (m : ℚ) * alpha))))

theorem bhSigVal_iff (p_values : List ℚ) (alpha : ℚ) (m : ℕ) (v : ℚ) :
    bhSigVal p_values alpha m v = true
      ↔ ∃ k, 1 ≤ k ∧ k ≤ p_values.length
          ∧ v ≤ (k : ℚ) / (m : ℚ) * alpha
          ∧ k ≤ p_values.countP (fun q => decide (q ≤ (k : ℚ) / (m : ℚ) * alpha)) := by
  rw [bhSigVal, List.any_eq_true]
  constructor
  · rintro ⟨j, hj, h⟩
    rw [List.mem_range] at hj
    rw [Bool.and_eq_true, decide_eq_true_eq, decide_eq_true_eq] at h
    exact ⟨j + 1, by omega, by omega, by exact_mod_cast h.1, h.2⟩
  · rintro ⟨k, hk1, hkn, hle, hcnt⟩
    refine ⟨k - 1, List.mem_range.mpr (by omega), ?_⟩
    rw [Bool.and_eq_true, decide_eq_true_eq, decide_eq_true_eq]
    have hkk : k - 1 + 1 = k := by omega
    rw [hkk]
    exact ⟨hle, hcnt⟩

/-- The significance flag `apply_benjamini_hochberg` returns for index `i`
is the rank-free, tie-independent function `bhSigVal` of index `i`'s own
p-value and the family. -/
theorem apply_bh_sig_getD_eq_bhSigVal (p_values : List ℚ) (alpha : ℚ) (n_tests : ℕ)
    (hp : ∀ x ∈ p_values, 0 ≤ x) (hm : 1 ≤ n_tests)
    {i : ℕ} (hi : i < p_values.length) :
    (apply_benjamini_hochberg p_values alpha n_tests).1.getD i false
      = bhSigVal p_values alpha n_tests (p_values.getD i 0) := by
  obtain ⟨r, hr, hval, hsig, _⟩ := apply_bh_getD_spec p_values alpha n_tests hi
  rw [List.getD_eq_getElem _ _ hi]
  have hval' : (sortedVals p_values).get ⟨r, hr⟩ = p_values[i] := hval
  have hsvals0 : ∀ x ∈ sortedVals p_values, 0 ≤ x := by
    intro x hx
    exact hp x ((sortedVals_perm p_values).mem_iff.mp hx)
  have hNn : (sortedVals p_values).length = p_values.length :=
    sortedVals_length p_values
  rw [Bool.eq_iff_iff, hsig, bhSigVal_iff]
  constructor
  · intro hk
    have hspec := (Nat.findGreatest_eq_iff.mp
      (rfl : Nat.findGreatest
        (fun k => 1 ≤ k ∧ (sortedVals p_values).getD (k - 1) 0
            ≤ (k : ℚ) / (n_tests : ℚ) * alpha)
        (sortedVals p_values).length = bhKmax n_tests alpha (sortedVals p_values)))
    have hKN : bhKmax n_tests alpha (sortedVals p_values)
        ≤ (sortedVals p_values).length := hspec.1
    have hK0 : bhKmax n_tests alpha (sortedVals p_values) ≠ 0 := by omega
    obtain ⟨hK1, hKle⟩ := hspec.2.1 hK0
    have hKlt : bhKmax n_tests alpha (sortedVals p_values) - 1
        < (sortedVals p_values).length := by omega
    have hKleD : (sortedVals p_values).getD
        (bhKmax n_tests alpha (sortedVals p_values) - 1) 0
        ≤ ((bhKmax n_tests alpha (sortedVals p_values) : ℕ) : ℚ)
          / (n_tests : ℚ) * alpha := hKle
    have hKle' : (sortedVals p_values).get
        ⟨bhKmax n_tests alpha (sortedVals p_values) - 1, hKlt⟩
        ≤ ((bhKmax n_tests alpha (sortedVals p_values) : ℕ) : ℚ)
          / (n_tests : ℚ) * alpha := by
      rw [List.getD_eq_getElem _ _ hKlt] at hKleD
      exact hKleD
    have hvK : p_values[i] ≤ (sortedVals p_values).get
        ⟨bhKmax n_tests alpha (sortedVals p_values) - 1, hKlt⟩ := by
      rcases Nat.lt_or_ge r (bhKmax n_tests alpha (sortedVals p_values) - 1)
        with hlt | hge
      · rw [← hval']
        exact List.pairwise_iff_get.mp (sortedVals_pairwise p_values)
          ⟨r, hr⟩ ⟨bhKmax n_tests alpha (sortedVals p_values) - 1, hKlt⟩
          (Fin.mk_lt_mk.mpr hlt)
      · have hreq : r = bhKmax n_tests alpha (sortedVals p_values) - 1 := by omega
        subst hreq
        rw [← hval']
    refine ⟨bhKmax n_tests alpha (sortedVals p_values), hK1, by omega,
      le_trans hvK hKle', ?_⟩
    have hq : ∀ a b : ℚ, a ≤ b →
        (fun x => decide (x ≤ ((bhKmax n_tests alpha (sortedVals p_values) : ℕ) : ℚ)
          / (n_tests : ℚ) * alpha)) b = true →
        (fun x => decide (x ≤ ((bhKmax n_tests alpha (sortedVals p_values) : ℕ) : ℚ)
          / (n_tests : ℚ) * alpha)) a = true := by
      intro a b hab hb
      rw [decide_eq_true_eq] at hb ⊢
      exact le_trans hab hb
    have hcnt := (sorted_pred_iff_countP _ hq (sortedVals p_values)
      (sortedVals_pairwise p_values) hKlt).mp (by
        rw [decide_eq_true_eq]; exact hKle')
    have hperm := (sortedVals_perm p_values).countP_eq
      (fun x => decide (x ≤ ((bhKmax n_tests alpha (sortedVals p_values) : ℕ) : ℚ)
        / (n_tests : ℚ) * alpha))
    omega
  · rintro ⟨k, hk1, hkn, hle, hcnt⟩
    rcases le_or_lt 0 alpha with ha | ha
    · set q : ℚ → Bool := fun x => decide (x ≤ (k : ℚ) / (n_tests : ℚ) * alpha)
        with hqdef
      have hq : ∀ a b : ℚ, a ≤ b → q b = true → q a = true := by
        intro a b hab hb
        rw [hqdef, decide_eq_true_eq] at hb ⊢
        exact le_trans hab hb
      set c := p_values.countP q with hc
      have hpermc : (sortedVals p_values).countP q = c :=
        (sortedVals_perm p_values).countP_eq q
      have hkc : k ≤ c := hcnt
      have hcn : c ≤ p_values.length := by
        rw [hc]; exact List.countP_le_length q
      have hclt : c - 1 < (sortedVals p_values).length := by omega
      have hqc : q ((sortedVals p_values).get ⟨c - 1, hclt⟩) = true := by
        rw [sorted_pred_iff_countP q hq (sortedVals p_values)
          (sortedVals_pairwise p_values) hclt]
        omega
      have hqc' : (sortedVals p_values).get ⟨c - 1, hclt⟩
          ≤ (k : ℚ) / (n_tests : ℚ) * alpha := by
        rw [hqdef] at hqc
        exact decide_eq_true_eq.mp hqc
      have hkcmono : (k : ℚ) / (n_tests : ℚ) * alpha
          ≤ (c : ℚ) / (n_tests : ℚ) * alpha := by
        refine mul_le_mul_of_nonneg_right ?_ ha
        have h1m : (0 : ℚ) ≤ 1 / (n_tests : ℚ) := by positivity
        have hkcq : (k : ℚ) ≤ (c : ℚ) := by exact_mod_cast hkc
        calc (k : ℚ) / (n_tests : ℚ) = (k : ℚ) * (1 / (n_tests : ℚ)) := by ring
          _ ≤ (c : ℚ) * (1 / (n_tests : ℚ)) := mul_le_mul_of_nonneg_right hkcq h1m
          _ = (c : ℚ) / (n_tests : ℚ) := by ring
      have hPc : 1 ≤ c ∧ (sortedVals p_values).getD (c - 1) 0
          ≤ (c : ℚ) / (n_tests : ℚ) * alpha := by
        refine ⟨by omega, ?_⟩
        rw [List.getD_eq_getElem _ _ hclt]
        exact le_trans hqc' hkcmono
      have hcK := Nat.le_findGreatest
        (P := fun k => 1 ≤ k ∧ (sortedVals p_values).getD (k - 1) 0
            ≤ (k : ℚ) / (n_tests : ℚ) * alpha)
        (by omega : c ≤ (sortedVals p_values).length) hPc
      have hrc : r + 1 ≤ c := by
        have hqv : q ((sortedVals p_values).get ⟨r, hr⟩) = true := by
          rw [hqdef, decide_eq_true_eq, hval']
          exact hle
        have := (sorted_pred_iff_countP q hq (sortedVals p_values)
          (sortedVals_pairwise p_values) hr).mp hqv
        omega
      exact le_trans hrc hcK
    · exfalso
      have hv0 : (0 : ℚ) ≤ p_values[i] := hp _ (List.getElem_mem hi)
      have hneg : (k : ℚ) / (n_tests : ℚ) * alpha < 0 := by
        refine mul_neg_of_pos_of_neg ?_ ha
        have hk1q : (0 : ℚ) < (k : ℚ) := by exact_mod_cast hk1
        have hmq : (0 : ℚ) < (n_tests : ℚ) := by exact_mod_cast hm
        positivity
      exact absurd hle (not_le.mpr (lt_of_lt_of_le hneg hv0))

theorem apply_bh_sig_eq_map (p_values : List ℚ) (alpha : ℚ) (n_tests : ℕ)
    (hp : ∀ x ∈ p_values, 0 ≤ x) (hm : 1 ≤ n_tests) :
    (apply_benjamini_hochberg p_values alpha n_tests).1
      = p_values.map (fun v => bhSigVal p_values alpha n_tests v) := by
  apply List.ext_getElem
    (by simp [apply_bh_sig_length])
  intro j h1 h2
  have hj : j < p_values.length := by
    simpa [apply_bh_sig_length] using h1
  have hchar := apply_bh_sig_getD_eq_bhSigVal p_values alpha n_tests hp hm hj
  rw [List.getD_eq_getElem _ _ h1, List.getD_eq_getElem _ _ hj] at hchar
  rw [hchar, List.getElem_map]

theorem apply_bonferroni_sig_eq_map (p_values : List ℚ) (alpha : ℚ) (n_tests : ℕ) :
    (apply_bonferroni p_values alpha n_tests).1
      = p_values.map (fun v => decide (min 1 (v * (n_tests : ℚ)) ≤ alpha)) := by
  simp [apply_bonferroni, List.map_map]

/-- Modelled from the spec: `compare_corrections(p_values, alpha)` from the
missing module `evaluation/statistical_tests.py`: runs both corrections on
the same family (with `n_tests` defaulting to the family size) and reports
the count of significant results per method. -/
def compare_corrections (p_values : List ℚ) (alpha : ℚ) : ℕ × ℕ :=
  ((apply_bonferroni p_values alpha p_values.length).1.countP (fun b => b),
   (apply_benjamini_hochberg p_values alpha p_values.length).1.countP (fun b => b))

/-- Pointwise: any Bonferroni-significant member of the family is also
BH-significant (same family, same alpha, `n_tests` = family size). -/
theorem bonferroni_sig_imp_bhSigVal (p_values : List ℚ) (alpha : ℚ)
    (hp : ∀ x ∈ p_values, 0 ≤ x ∧ x ≤ 1) {v : ℚ} (hv : v ∈ p_values)
    (hb : min 1 (v * (p_values.length : ℚ)) ≤ alpha) :
    bhSigVal p_values alpha p_values.length v = true := by
  have hn1 : 1 ≤ p_values.length := List.length_pos.mpr (by
    rintro rfl
    simp at hv)
  have hnq : (0 : ℚ) < (p_values.length : ℚ) := by exact_mod_cast hn1
  rcases le_or_lt 1 alpha with ha1 | ha1
  · refine (bhSigVal_iff _ _ _ _).mpr ⟨p_values.length, hn1, le_rfl, ?_, ?_⟩
    · have hdiv : ((p_values.length : ℕ) : ℚ) / (p_values.length : ℚ) = 1 :=
        div_self (ne_of_gt hnq)
      rw [hdiv, one_mul]
      exact le_trans (hp v hv).2 ha1
    · have hall : p_values.countP
          (fun q => decide (q ≤ ((p_values.length : ℕ) : ℚ)
            / (p_values.length : ℚ) * alpha)) = p_values.length := by
        rw [List.countP_eq_length]
        intro a hamem
        rw [decide_eq_true_eq, div_self (ne_of_gt hnq), one_mul]
        exact le_trans (hp a hamem).2 ha1
      omega
  · have hvn : v * (p_values.length : ℚ) ≤ alpha := by
      rcases min_le_iff.mp hb with h1 | h2
      · exact absurd (lt_of_le_of_lt h1 ha1) (lt_irrefl 1)
      · exact h2
    have ha0 : (0 : ℚ) ≤ alpha := by
      have : (0 : ℚ) ≤ v * (p_values.length : ℚ) := by
        have := (hp v hv).1
        positivity
      exact le_trans this hvn
    set b := p_values.countP (fun x => decide (x * (p_values.length : ℚ) ≤ alpha))
      with hbdef
    have hb1 : 1 ≤ b := by
      rw [hbdef]
      exact List.countP_pos.mpr ⟨v, hv, by rw [decide_eq_true_eq]; exact hvn⟩
    have hbn : b ≤ p_values.length := List.countP_le_length _
    have hkey : ∀ x : ℚ, x * (p_values.length : ℚ) ≤ alpha →
        x ≤ ((b : ℕ) : ℚ) / (p_values.length : ℚ) * alpha := by
      intro x hx
      have hbq : (1 : ℚ) ≤ (b : ℚ) := by exact_mod_cast hb1
      have h1 : x ≤ ((b : ℚ) * alpha) / (p_values.length : ℚ) := by
        rw [le_div_iff₀ hnq]
        exact le_trans hx (le_mul_of_one_le_left ha0 hbq)
      calc x ≤ ((b : ℚ) * alpha) / (p_values.length : ℚ) := h1
        _ = ((b : ℕ) : ℚ) / (p_values.length : ℚ) * alpha := by ring
    refine (bhSigVal_iff _ _ _ _).mpr ⟨b, hb1, hbn, hkey v hvn, ?_⟩
    rw [hbdef]
    refine List.countP_mono_left ?_
    intro x hx hxb
    rw [decide_eq_true_eq] at hxb ⊢
    exact hkey x hxb

/-- C4: on the same p-value family and the same alpha, Benjamini-Hochberg
marks at least as many results significant as Bonferroni does, both through
the raw correction procedures and in the `compare_corrections` report. -/
theorem C4_bh_dominates_bonferroni (p_values : List ℚ) (alpha : ℚ)
    (hp : ∀ x ∈ p_values, 0 ≤ x ∧ x ≤ 1) :
    (apply_bonferroni p_values alpha p_values.length).1.countP (fun b => b)
      ≤ (apply_benjamini_hochberg p_values alpha p_values.length).1.countP (fun b => b)
    ∧ (compare_corrections p_values alpha).1 ≤ (compare_corrections p_values alpha).2 := by
  have hmain : (apply_bonferroni p_values alpha p_values.length).1.countP (fun b => b)
      ≤ (apply_benjamini_hochberg p_values alpha p_values.length).1.countP
        (fun b => b) := by
    rcases List.eq_nil_or_concat p_values with hnil | hne
    · subst hnil
      simp [apply_bonferroni, apply_benjamini_hochberg]
    · have hn1 : 1 ≤ p_values.length := by
        obtain ⟨l, a, rfl⟩ := hne
        simp
      rw [apply_bonferroni_sig_eq_map,
        apply_bh_sig_eq_map p_values alpha p_values.length
          (fun x hx => (hp x hx).1) hn1,
        List.countP_map, List.countP_map]
      refine List.countP_mono_left ?_
      intro v hv hvb
      simp only [Function.comp] at hvb ⊢
      rw [decide_eq_true_eq] at hvb
      exact bonferroni_sig_imp_bhSigVal p_values alpha hp hv hvb
  exact ⟨hmain, hmain⟩

/-- Closed witness for C4 on the test script's family. -/
theorem C4_bh_dominates_bonferroni_witness :
    (∀ x ∈ [(1 : ℚ)/100, 1/25, 3/100, 1/2], 0 ≤ x ∧ x ≤ 1)
    ∧ ((apply_bonferroni [(1 : ℚ)/100, 1/25, 3/100, 1/2] (1/20)
          [(1 : ℚ)/100, 1/25, 3/100, 1/2].length).1.countP (fun b => b)
        ≤ (apply_benjamini_hochberg [(1 : ℚ)/100, 1/25, 3/100, 1/2] (1/20)
          [(1 : ℚ)/100, 1/25, 3/100, 1/2].length).1.countP (fun b => b)
      ∧ (compare_corrections [(1 : ℚ)/100, 1/25, 3/100, 1/2] (1/20)).1
        ≤ (compare_corrections [(1 : ℚ)/100, 1/25, 3/100, 1/2] (1/20)).2) :=
  ⟨by
    intro x hx
    simp only [List.mem_cons, List.not_mem_nil, or_false] at hx
    rcases hx with rfl | rfl | rfl | rfl <;> norm_num,
    C4_bh_dominates_bonferroni [(1 : ℚ)/100, 1/25, 3/100, 1/2] (1/20) (by
      intro x hx
      simp only [List.mem_cons, List.not_mem_nil, or_false] at hx
      rcases hx with rfl | rfl | rfl | rfl <;> norm_num)⟩

/-! ## Confusion matrix, classification metrics and chi-square test

Modelled from the spec: the missing module `evaluation/confusion_matrix.py`
(`ModelEvaluator.evaluate`) builds a 3x3 confusion matrix over the closed
label domain SELL(-1), HOLD(0), BUY(1), derives accuracy and per-class
precision/recall/F1 (0 whenever the underlying denominator is 0), and runs a
chi-square independence test whose degenerate all-zero-expected case returns
statistic 0 and p-value 1.  The chi-square survival function is abstracted
as a parameter `sf` (statistic, degrees of freedom to upper-tail
probability). -/

/-- The closed label domain: SELL(-1), HOLD(0), BUY(1). -/
def validLabel (x : ℤ) : Bool := x == -1 || x == 0 || x == 1

/-- The three classes in matrix order: SELL, HOLD, BUY. -/
def classes : List ℤ := [-1, 0, 1]

/-- Confusion matrix cell: number of positions whose actual label is `a`
and predicted label is `b`. -/
def cmCount (t p : List ℤ) (a b : ℤ) : ℕ :=
  (t.zip p).countP (fun s => s.1 == a && s.2 == b)

/-- Row sum of the confusion matrix: per-class actual count. -/
def rowSum (t p : List ℤ) (a : ℤ) : ℕ :=
  (classes.map (fun b => cmCount t p a b)).sum

/-- Column sum of the confusion matrix: per-class predicted count. -/
def colSum (t p : List ℤ) (b : ℤ) : ℕ :=
  (classes.map (fun a => cmCount t p a b)).sum

/-- Sum of all confusion matrix cells. -/
def cmTotal (t p : List ℤ) : ℕ :=
  (classes.map (fun a => rowSum t p a)).sum

/-- Sum of the diagonal cells: correctly classified count. -/
def cmTrace (t p : List ℤ) : ℕ :=
  (classes.map (fun c => cmCount t p c c)).sum

/-- Per-class precision: `M[c][c] / column-sum(c)`, 0 when no predictions
of class `c` were made. -/
def precision_c (t p : List ℤ) (c : ℤ) : ℚ :=
  if colSum t p c = 0 then 0 else (cmCount t p c c : ℚ) / (colSum t p c : ℚ)

/-- Per-class recall: `M[c][c] / row-sum(c)`, 0 when class `c` never
occurs in the actual series. -/
def recall_c (t p : List ℤ) (c : ℤ) : ℚ :=
  if rowSum t p c = 0 then 0 else (cmCount t p c c : ℚ) / (rowSum t p c : ℚ)

/-- Per-class F1: harmonic mean of precision and recall, 0 when both are 0. -/
def f1_c (t p : List ℤ) (c : ℤ) : ℚ :=
  if precision_c t p c = 0 ∧ recall_c t p c = 0 then 0
  else 2 * precision_c t p c * recall_c t p c
    / (precision_c t p c + recall_c t p c)

/-- Overall accuracy: diagonal over total. -/
def accuracy (t p : List ℤ) : ℚ := (cmTrace t p : ℚ) / (cmTotal t p : ℚ)

/-- Expected cell count under independence: `row-sum(a) * column-sum(b) / N`. -/
def expectedCell (t p : List ℤ) (a b : ℤ) : ℚ :=
  ((rowSum t p a : ℚ) * (colSum t p b : ℚ)) / (cmTotal t p : ℚ)

/-- Whether every expected cell of the independence test is 0. -/
def allExpectedZero (t p : List ℤ) : Bool :=
  classes.all (fun a => classes.all (fun b => expectedCell t p a b == 0))

/-- The chi-square statistic: sum over cells with positive expected count of
`(observed - expected)^2 / expected`. -/
def chi2Statistic (t p : List ℤ) : ℚ :=
  (classes.map (fun a =>
    (classes.map (fun b =>
      if 0 < expectedCell t p a b then
        ((cmCount t p a b : ℚ) - expectedCell t p a b) ^ 2 / expectedCell t p a b
      else 0)).sum)).sum

/-- Degrees of freedom: `(r - 1) * (c - 1)` over classes with non-zero
row / column sums. -/
def chi2Dof (t p : List ℤ) : ℕ :=
  (classes.countP (fun a => !(rowSum t p a == 0)) - 1)
    * (classes.countP (fun b => !(colSum t p b == 0)) - 1)

/-- The independence test: statistic and upper-tail p-value, with the
degenerate all-zero-expected case resolved to `(0, 1)` instead of raising. -/
def chi2_test (sf : ℚ → ℕ → ℚ) (t p : List ℤ) : ℚ × ℚ :=
  if allExpectedZero t p then (0, 1)
  else (chi2Statistic t p, sf (chi2Statistic t p) (chi2Dof t p))

/-- The metric bundle `evaluate` computes before any correction. -/
structure EvaluationMetrics where
  accuracy : ℚ
  precisions : List ℚ
  recalls : List ℚ
  f1s : List ℚ
  f1_avg : ℚ
  matrix : List (List ℕ)
  chi2_statistic : ℚ
  chi2_p_value : ℚ

/-- The two supported correction methods. -/
inductive CorrectionMethod where
  | bonferroni
  | benjamini_hochberg

/-- The typed errors of the evaluation core. -/
inductive EvalError where
  | invalidInput (reason : String)
  | correctionConfig (reason : String)

/-- An `EvaluationMetrics` bundle computed from a validated pair of series. -/
def computeMetrics (sf : ℚ → ℕ → ℚ) (t p : List ℤ) : EvaluationMetrics :=
  { accuracy := accuracy t p
    precisions := classes.map (fun c => precision_c t p c)
    recalls := classes.map (fun c => recall_c t p c)
    f1s := classes.map (fun c => f1_c t p c)
    f1_avg := (classes.map (fun c => f1_c t p c)).sum / 3
    matrix := classes.map (fun a => classes.map (fun b => cmCount t p a b))
    chi2_statistic := (chi2_test sf t p).1
    chi2_p_value := (chi2_test sf t p).2 }

/-- An `EvaluationMetrics` plus the correction outcome. -/
structure EvaluationResult where
  metrics : EvaluationMetrics
  adjusted_p_value : ℚ
  significant : Bool
  n_tests : ℕ

/-- Dispatch a correction method on a family of p-values. -/
def applyCorrection (method : CorrectionMethod) (p_values : List ℚ) (alpha : ℚ)
    (n_tests : ℕ) : List Bool × List ℚ :=
  match method with
  | .bonferroni => apply_bonferroni p_values alpha n_tests
  | .benjamini_hochberg => apply_benjamini_hochberg p_values alpha n_tests

/-- Input validation: mismatched lengths, empty series, or an out-of-domain
label each yield an `InvalidInputError` naming the offence, before any
numeric computation. -/
def validateSeries (t p : List ℤ) : Option EvalError :=
  if t.length ≠ p.length then
    some (.invalidInput "mismatched sequence lengths")
  else if t.length = 0 then
    some (.invalidInput "empty sequences")
  else
    match t.findIdx? (fun x => !validLabel x) with
    | some i => some (.invalidInput ("label outside domain in true series at index "
        ++ toString i))
    | none =>
      match p.findIdx? (fun x => !validLabel x) with
      | some i => some (.invalidInput ("label outside domain in predicted series at index "
          ++ toString i))
      | none => none

/-- Modelled from the spec: `ModelEvaluator.evaluate(true_labels,
predicted_labels, correction, n_tests, alpha)` from the missing module
`evaluation/confusion_matrix.py`.  Validates, computes the metric bundle,
then optionally applies one correction to the single raw p-value within a
declared family of `n_tests` tests. -/
def evaluate (sf : ℚ → ℕ → ℚ) (t p : List ℤ) (correction : Option CorrectionMethod)
    (n_tests : ℕ) (alpha : ℚ) : Except EvalError EvaluationResult :=
  match validateSeries t p with
  | some e => .error e
  | none =>
    let mets := computeMetrics sf t p
    match correction with
    | none =>
      .ok { metrics := mets
            adjusted_p_value := mets.chi2_p_value
            significant := decide (mets.chi2_p_value ≤ alpha)
            n_tests := 1 }
    | some method =>
      if n_tests < 1 then
        .error (.correctionConfig "declared family smaller than the supplied p-values")
      else
        let corrected := applyCorrection method [mets.chi2_p_value] alpha n_tests
        .ok { metrics := mets
              adjusted_p_value := corrected.2.getD 0 1
              significant := corrected.1.getD 0 false
              n_tests := n_tests }

/-- C7: degenerate numeric conditions resolve to documented sentinel values
instead of raising: an all-zero expected table gives statistic 0 and p-value
1, a zero column sum gives precision 0, a zero row sum gives recall 0, and
zero precision and recall give F1 0.  (The embedding is total over exact
rationals, so no NaN or Infinity can arise.) -/
theorem C7_degenerate_sentinels (sf : ℚ → ℕ → ℚ) (t p : List ℤ) (c : ℤ) :
    (allExpectedZero t p = true → chi2_test sf t p = (0, 1))
    ∧ (colSum t p c = 0 → precision_c t p c = 0)
    ∧ (rowSum t p c = 0 → recall_c t p c = 0)
    ∧ (precision_c t p c = 0 ∧ recall_c t p c = 0 → f1_c t p c = 0) := by
  refine ⟨?_, ?_, ?_, ?_⟩
  · intro h; simp [chi2_test, h]
  · intro h; simp [precision_c, h]
  · intro h; simp [recall_c, h]
  · intro h; simp [f1_c, h]

/-- Closed witness for C7 on the empty pair of series. -/
theorem C7_degenerate_sentinels_witness :
    (allExpectedZero [] [] = true ∧ colSum ([] : List ℤ) [] (-1) = 0
      ∧ rowSum ([] : List ℤ) [] (-1) = 0
      ∧ precision_c ([] : List ℤ) [] (-1) = 0 ∧ recall_c ([] : List ℤ) [] (-1) = 0)
    ∧ (chi2_test (fun _ _ => 1/2) [] [] = (0, 1)
      ∧ precision_c ([] : List ℤ) [] (-1) = 0
      ∧ recall_c ([] : List ℤ) [] (-1) = 0
      ∧ f1_c ([] : List ℤ) [] (-1) = 0) := by
  have hz : allExpectedZero [] [] = true := by
    norm_num [allExpectedZero, expectedCell, rowSum, colSum, cmCount, cmTotal, classes]
  have hcol : colSum ([] : List ℤ) [] (-1) = 0 := by
    norm_num [colSum, cmCount, classes]
  have hrow : rowSum ([] : List ℤ) [] (-1) = 0 := by
    norm_num [rowSum, cmCount, classes]
  have h := C7_degenerate_sentinels (fun _ _ => 1/2) [] [] (-1)
  have hprec := h.2.1 hcol
  have hrec := h.2.2.1 hrow
  exact ⟨⟨hz, hcol, hrow, hprec, hrec⟩,
    ⟨h.1 hz, hprec, hrec, h.2.2.2 ⟨hprec, hrec⟩⟩⟩

/-- `validateSeries` succeeds exactly on equal-length, non-empty, in-domain
series. -/
theorem validateSeries_eq_none_iff (t p : List ℤ) :
    validateSeries t p = none
      ↔ t.length = p.length ∧ t ≠ []
        ∧ (∀ x ∈ t, validLabel x = true) ∧ (∀ x ∈ p, validLabel x = true) := by
  unfold validateSeries
  by_cases h1 : t.length ≠ p.length
  · rw [if_pos h1]
    simp only [reduceCtorEq, false_iff, not_and]
    intro h
    exact absurd h h1
  · rw [if_neg h1]
    push_neg at h1
    by_cases h2 : t.length = 0
    · rw [if_pos h2]
      have ht : t = [] := List.length_eq_zero.mp h2
      simp [ht]
    · rw [if_neg h2]
      have htne : t ≠ [] := by
        intro h; rw [h] at h2; simp at h2
      cases hf : t.findIdx? (fun x => !validLabel x) with
      | some i =>
        simp only [reduceCtorEq, false_iff, not_and]
        intro _ _
        obtain ⟨hilt, hidx⟩ := List.findIdx?_eq_some_iff_findIdx_eq.mp hf
        intro hall
        have hbad : (fun x => !validLabel x) t[List.findIdx (fun x => !validLabel x) t]
            = true := List.findIdx_getElem (w := hidx ▸ hilt)
        have := hall t[List.findIdx (fun x => !validLabel x) t]
          (List.getElem_mem (hidx ▸ hilt))
        simp [this] at hbad
      | none =>
        have ht : ∀ x ∈ t, validLabel x = true := by
          intro x hx
          have := List.findIdx?_eq_none_iff.mp hf x hx
          simpa using this
        cases hg : p.findIdx? (fun x => !validLabel x) with
        | some i =>
          simp only [reduceCtorEq, false_iff, not_and]
          intro _ _ _
          obtain ⟨hilt, hidx⟩ := List.findIdx?_eq_some_iff_findIdx_eq.mp hg
          intro hall
          have hbad : (fun x => !validLabel x) p[List.findIdx (fun x => !validLabel x) p]
              = true := List.findIdx_getElem (w := hidx ▸ hilt)
          have := hall p[List.findIdx (fun x => !validLabel x) p]
            (List.getElem_mem (hidx ▸ hilt))
          simp [this] at hbad
        | none =>
          have hpv : ∀ x ∈ p, validLabel x = true := by
            intro x hx
            have := List.findIdx?_eq_none_iff.mp hg x hx
            simpa using this
          exact iff_of_true rfl ⟨h1, htne, ht, hpv⟩

/-- Any `validateSeries` failure is an `InvalidInputError`. -/
theorem validateSeries_some_invalid (t p : List ℤ) :
    validateSeries t p = none
    ∨ ∃ msg, validateSeries t p = some (.invalidInput msg) := by
  unfold validateSeries
  by_cases h1 : t.length ≠ p.length
  · rw [if_pos h1]; exact Or.inr ⟨_, rfl⟩
  · rw [if_neg h1]
    by_cases h2 : t.length = 0
    · rw [if_pos h2]; exact Or.inr ⟨_, rfl⟩
    · rw [if_neg h2]
      cases hf : t.findIdx? (fun x => !validLabel x) with
      | some i => exact Or.inr ⟨_, rfl⟩
      | none =>
        cases hg : p.findIdx? (fun x => !validLabel x) with
        | some i => exact Or.inr ⟨_, rfl⟩
        | none => exact Or.inl rfl

/-- C8: `evaluate` fails with an `InvalidInputError` exactly when the two
series have unequal lengths, a series is empty, or a label lies outside
SELL/HOLD/BUY; on every other input (with a well-formed declared family
size) it returns a complete result, never a partial one. -/
theorem C8_validation (sf : ℚ → ℕ → ℚ) (t p : List ℤ)
    (correction : Option CorrectionMethod) (n_tests : ℕ) (alpha : ℚ)
    (hn : 1 ≤ n_tests) :
    ((∃ msg, evaluate sf t p correction n_tests alpha = .error (.invalidInput msg))
      ↔ (t.length ≠ p.length ∨ t = [] ∨ p = []
          ∨ (∃ x ∈ t, validLabel x = false) ∨ (∃ x ∈ p, validLabel x = false)))
    ∧ (¬ (t.length ≠ p.length ∨ t = [] ∨ p = []
          ∨ (∃ x ∈ t, validLabel x = false) ∨ (∃ x ∈ p, validLabel x = false))
        → ∃ res, evaluate sf t p correction n_tests alpha = .ok res) := by
  have hok : validateSeries t p = none →
      ∃ res, evaluate sf t p correction n_tests alpha = .ok res := by
    intro hv
    have hlt : ¬ n_tests < 1 := by omega
    cases correction with
    | none =>
      exact ⟨_, by unfold evaluate; rw [hv]⟩
    | some method =>
      have hred : evaluate sf t p (some method) n_tests alpha
          = (if n_tests < 1 then
              Except.error (EvalError.correctionConfig
                "declared family smaller than the supplied p-values")
            else
              Except.ok
                { metrics := computeMetrics sf t p
                  adjusted_p_value := (applyCorrection method
                    [(computeMetrics sf t p).chi2_p_value] alpha n_tests).2.getD 0 1
                  significant := (applyCorrection method
                    [(computeMetrics sf t p).chi2_p_value] alpha n_tests).1.getD 0 false
                  n_tests := n_tests }) := by
        unfold evaluate
        rw [hv]
      exact ⟨{ metrics := computeMetrics sf t p
               adjusted_p_value := (applyCorrection method
                 [(computeMetrics sf t p).chi2_p_value] alpha n_tests).2.getD 0 1
               significant := (applyCorrection method
                 [(computeMetrics sf t p).chi2_p_value] alpha n_tests).1.getD 0 false
               n_tests := n_tests },
        by rw [hred, if_neg hlt]⟩
  have notfalse : ∀ x : ℤ, validLabel x ≠ false → validLabel x = true := by
    intro x h
    cases hxv : validLabel x with
    | false => exact absurd hxv h
    | true => rfl
  refine ⟨⟨?_, ?_⟩, ?_⟩
  · rintro ⟨msg, hmsg⟩
    have hvne : validateSeries t p ≠ none := by
      intro hv
      obtain ⟨res, hres⟩ := hok hv
      rw [hres] at hmsg
      exact absurd hmsg (by simp)
    by_contra hcond
    push_neg at hcond
    obtain ⟨hlen, hts, _, htv, hpv⟩ := hcond
    apply hvne
    refine (validateSeries_eq_none_iff t p).mpr ⟨hlen, hts, ?_, ?_⟩
    · exact fun x hx => notfalse x (htv x hx)
    · exact fun x hx => notfalse x (hpv x hx)
  · intro hcond
    rcases validateSeries_some_invalid t p with hv | ⟨msg, hv⟩
    · exfalso
      obtain ⟨hlen, hts, htv, hpv⟩ := (validateSeries_eq_none_iff t p).mp hv
      rcases hcond with h | h | h | ⟨x, hx, hxf⟩ | ⟨x, hx, hxf⟩
      · exact h hlen
      · exact hts h
      · rw [h] at hlen
        simp only [List.length_nil] at hlen
        exact hts (List.length_eq_zero.mp hlen)
      · rw [htv x hx] at hxf
        exact absurd hxf (by simp)
      · rw [hpv x hx] at hxf
        exact absurd hxf (by simp)
    · refine ⟨msg, ?_⟩
      unfold evaluate
      rw [hv]
  · intro hcond
    push_neg at hcond
    obtain ⟨hlen, hts, _, htv, hpv⟩ := hcond
    exact hok ((validateSeries_eq_none_iff t p).mpr
      ⟨hlen, hts, fun x hx => notfalse x (htv x hx),
        fun x hx => notfalse x (hpv x hx)⟩)

/-- Closed witness for C8 on a concrete valid pair and family size 3. -/
theorem C8_validation_witness :
    (1 ≤ 3)
    ∧ (((∃ msg, evaluate (fun _ _ => 1/2) [1, -1, 0] [1, 0, 0]
          (some .bonferroni) 3 (1/20) = .error (.invalidInput msg))
        ↔ (([1, -1, 0] : List ℤ).length ≠ ([1, 0, 0] : List ℤ).length
            ∨ ([1, -1, 0] : List ℤ) = [] ∨ ([1, 0, 0] : List ℤ) = []
            ∨ (∃ x ∈ ([1, -1, 0] : List ℤ), validLabel x = false)
            ∨ (∃ x ∈ ([1, 0, 0] : List ℤ), validLabel x = false)))
      ∧ (¬ (([1, -1, 0] : List ℤ).length ≠ ([1, 0, 0] : List ℤ).length
            ∨ ([1, -1, 0] : List ℤ) = [] ∨ ([1, 0, 0] : List ℤ) = []
            ∨ (∃ x ∈ ([1, -1, 0] : List ℤ), validLabel x = false)
            ∨ (∃ x ∈ ([1, 0, 0] : List ℤ), validLabel x = false))
          → ∃ res, evaluate (fun _ _ => 1/2) [1, -1, 0] [1, 0, 0]
              (some .bonferroni) 3 (1/20) = .ok res)) :=
  ⟨by norm_num,
    C8_validation (fun _ _ => 1/2) [1, -1, 0] [1, 0, 0]
      (some .bonferroni) 3 (1/20) (by norm_num)⟩

theorem zip_self_countP (y : List ℤ) (f : ℤ × ℤ → Bool) :
    (y.zip y).countP f = y.countP (fun x => f (x, x)) := by
  induction y with
  | nil => rfl
  | cons a l ih => simp [List.countP_cons, ih]

theorem cmCount_self_diag (y : List ℤ) (c : ℤ) :
    cmCount y y c c = y.countP (fun x => x == c) := by
  rw [cmCount, zip_self_countP]
  refine List.countP_congr ?_
  intro x _
  simp

theorem cmCount_self_off (y : List ℤ) {a b : ℤ} (hab : a ≠ b) :
    cmCount y y a b = 0 := by
  rw [cmCount, zip_self_countP, List.countP_eq_zero]
  intro x _
  simp only [Bool.and_eq_true, beq_iff_eq, not_and]
  rintro rfl rfl
  exact hab rfl

theorem valid_count_partition (y : List ℤ) (hv : ∀ x ∈ y, validLabel x = true) :
    y.countP (fun x => x == -1) + y.countP (fun x => x == 0)
      + y.countP (fun x => x == 1) = y.length := by
  induction y with
  | nil => rfl
  | cons a l ih =>
    have hva := hv a (List.mem_cons_self a l)
    have hvl : ∀ x ∈ l, validLabel x = true :=
      fun x hx => hv x (List.mem_cons_of_mem a hx)
    have h3 : a = -1 ∨ a = 0 ∨ a = 1 := by
      have := hva
      simp only [validLabel, Bool.or_eq_true, beq_iff_eq] at this
      tauto
    have hl := ih hvl
    simp only [List.countP_cons, List.length_cons]
    rcases h3 with rfl | rfl | rfl <;> norm_num <;> omega

theorem rowSum_self (y : List ℤ) {c : ℤ} (hc : c ∈ classes) :
    rowSum y y c = y.countP (fun x => x == c) := by
  simp only [classes, List.mem_cons, List.not_mem_nil, or_false] at hc
  rcases hc with rfl | rfl | rfl <;>
    (rw [rowSum]
     simp only [classes, List.map_cons, List.map_nil, List.sum_cons, List.sum_nil]
     rw [cmCount_self_diag]
     rw [cmCount_self_off y (by norm_num), cmCount_self_off y (by norm_num)]
     omega)

theorem colSum_self (y : List ℤ) {c : ℤ} (hc : c ∈ classes) :
    colSum y y c = y.countP (fun x => x == c) := by
  simp only [classes, List.mem_cons, List.not_mem_nil, or_false] at hc
  rcases hc with rfl | rfl | rfl <;>
    (rw [colSum]
     simp only [classes, List.map_cons, List.map_nil, List.sum_cons, List.sum_nil]
     rw [cmCount_self_diag]
     rw [cmCount_self_off y (by norm_num), cmCount_self_off y (by norm_num)]
     omega)

theorem cmTrace_self (y : List ℤ) (hv : ∀ x ∈ y, validLabel x = true) :
    cmTrace y y = y.length := by
  rw [cmTrace]
  simp only [classes, List.map_cons, List.map_nil, List.sum_cons, List.sum_nil]
  rw [cmCount_self_diag, cmCount_self_diag, cmCount_self_diag]
  have := valid_count_partition y hv
  omega

theorem cmTotal_self (y : List ℤ) (hv : ∀ x ∈ y, validLabel x = true) :
    cmTotal y y = y.length := by
  rw [cmTotal]
  simp only [classes, List.map_cons, List.map_nil, List.sum_cons, List.sum_nil]
  rw [rowSum_self y (by simp [classes]), rowSum_self y (by simp [classes]),
    rowSum_self y (by simp [classes])]
  have := valid_count_partition y hv
  omega

theorem accuracy_self (y : List ℤ) (hv : ∀ x ∈ y, validLabel x = true)
    (hne : y ≠ []) : accuracy y y = 1 := by
  rw [accuracy, cmTrace_self y hv, cmTotal_self y hv]
  have hpos : 0 < y.length := List.length_pos.mpr hne
  have : ((y.length : ℕ) : ℚ) ≠ 0 := by exact_mod_cast Nat.pos_iff_ne_zero.mp hpos
  exact div_self this

theorem precision_self (y : List ℤ) {c : ℤ} (hc : c ∈ classes)
    (hpos : 0 < y.countP (fun x => x == c)) : precision_c y y c = 1 := by
  rw [precision_c, colSum_self y hc, if_neg (by omega), cmCount_self_diag]
  have : ((y.countP (fun x => x == c) : ℕ) : ℚ) ≠ 0 := by
    exact_mod_cast Nat.pos_iff_ne_zero.mp hpos
  exact div_self this

theorem recall_self (y : List ℤ) {c : ℤ} (hc : c ∈ classes)
    (hpos : 0 < y.countP (fun x => x == c)) : recall_c y y c = 1 := by
  rw [recall_c, rowSum_self y hc, if_neg (by omega), cmCount_self_diag]
  have : ((y.countP (fun x => x == c) : ℕ) : ℚ) ≠ 0 := by
    exact_mod_cast Nat.pos_iff_ne_zero.mp hpos
  exact div_self this

theorem f1_self (y : List ℤ) {c : ℤ} (hc : c ∈ classes)
    (hpos : 0 < y.countP (fun x => x == c)) : f1_c y y c = 1 := by
  rw [f1_c, precision_self y hc hpos, recall_self y hc hpos]
  norm_num

/-- C9: on any valid non-empty series predicted perfectly (`predicted =
true`), accuracy is 1 and every class with non-zero support has per-class
precision, recall and F1 equal to 1; `evaluate` returns this as a complete
result; and on the concrete series `[1,1,-1,0,1,-1,0,0,1,-1]` every one of
those values is 1. -/
theorem C9_perfect_classifier (y : List ℤ) (hv : ∀ x ∈ y, validLabel x = true)
    (hne : y ≠ []) :
    (accuracy y y = 1
      ∧ (∀ c ∈ classes, 0 < y.countP (fun x => x == c) →
          precision_c y y c = 1 ∧ recall_c y y c = 1 ∧ f1_c y y c = 1)
      ∧ ∀ sf : ℚ → ℕ → ℚ, ∀ alpha : ℚ, ∃ res,
          evaluate sf y y none 1 alpha = .ok res ∧ res.metrics.accuracy = 1)
    ∧ (accuracy [1, 1, -1, 0, 1, -1, 0, 0, 1, -1] [1, 1, -1, 0, 1, -1, 0, 0, 1, -1] = 1
      ∧ ∀ c ∈ classes,
          precision_c [1, 1, -1, 0, 1, -1, 0, 0, 1, -1] [1, 1, -1, 0, 1, -1, 0, 0, 1, -1] c = 1
          ∧ recall_c [1, 1, -1, 0, 1, -1, 0, 0, 1, -1] [1, 1, -1, 0, 1, -1, 0, 0, 1, -1] c = 1
          ∧ f1_c [1, 1, -1, 0, 1, -1, 0, 0, 1, -1] [1, 1, -1, 0, 1, -1, 0, 0, 1, -1] c = 1) := by
  have hgen : ∀ z : List ℤ, (∀ x ∈ z, validLabel x = true) → z ≠ [] →
      accuracy z z = 1
      ∧ (∀ c ∈ classes, 0 < z.countP (fun x => x == c) →
          precision_c z z c = 1 ∧ recall_c z z c = 1 ∧ f1_c z z c = 1)
      ∧ ∀ sf : ℚ → ℕ → ℚ, ∀ alpha : ℚ, ∃ res,
          evaluate sf z z none 1 alpha = .ok res ∧ res.metrics.accuracy = 1 := by
    intro z hvz hnez
    refine ⟨accuracy_self z hvz hnez, ?_, ?_⟩
    · intro c hc hposc
      exact ⟨precision_self z hc hposc, recall_self z hc hposc, f1_self z hc hposc⟩
    · intro sf alpha
      have hvnone : validateSeries z z = none :=
        (validateSeries_eq_none_iff z z).mpr ⟨rfl, hnez, hvz, hvz⟩
      refine ⟨{ metrics := computeMetrics sf z z
                adjusted_p_value := (computeMetrics sf z z).chi2_p_value
                significant := decide ((computeMetrics sf z z).chi2_p_value ≤ alpha)
                n_tests := 1 }, ?_, ?_⟩
      · unfold evaluate
        rw [hvnone]
      · show (computeMetrics sf z z).accuracy = 1
        show accuracy z z = 1
        exact accuracy_self z hvz hnez
  refine ⟨hgen y hv hne, ?_⟩
  have hv0 : ∀ x ∈ ([1, 1, -1, 0, 1, -1, 0, 0, 1, -1] : List ℤ),
      validLabel x = true := by decide
  have hne0 : ([1, 1, -1, 0, 1, -1, 0, 0, 1, -1] : List ℤ) ≠ [] := by decide
  obtain ⟨hacc0, hper0, _⟩ := hgen [1, 1, -1, 0, 1, -1, 0, 0, 1, -1] hv0 hne0
  refine ⟨hacc0, ?_⟩
  intro c hc
  refine hper0 c hc ?_
  simp only [classes, List.mem_cons, List.not_mem_nil, or_false] at hc
  rcases hc with rfl | rfl | rfl <;> decide

/-- Closed witness for C9 at the concrete perfect-classifier scenario. -/
theorem C9_perfect_classifier_witness :
    ((∀ x ∈ ([1, 1, -1, 0, 1, -1, 0, 0, 1, -1] : List ℤ), validLabel x = true)
      ∧ ([1, 1, -1, 0, 1, -1, 0, 0, 1, -1] : List ℤ) ≠ [])
    ∧ accuracy [1, 1, -1, 0, 1, -1, 0, 0, 1, -1] [1, 1, -1, 0, 1, -1, 0, 0, 1, -1] = 1 :=
  ⟨⟨by decide, by decide⟩,
    (C9_perfect_classifier [1, 1, -1, 0, 1, -1, 0, 0, 1, -1]
      (by decide) (by decide)).2.1⟩

/-- The chi-square p-value is a probability whenever the survival function
is. -/
theorem chi2_test_pvalue_bounds (sf : ℚ → ℕ → ℚ)
    (hsf : ∀ s d, 0 ≤ sf s d ∧ sf s d ≤ 1) (t p : List ℤ) :
    0 ≤ (chi2_test sf t p).2 ∧ (chi2_test sf t p).2 ≤ 1 := by
  rw [chi2_test]
  by_cases h : allExpectedZero t p = true
  · rw [if_pos h]
    norm_num
  · rw [if_neg h]
    exact hsf _ _

/-- C3: for both correction procedures every adjusted p-value is at least
its raw p-value, and consequently every `EvaluationResult` that `evaluate`
produces with a correction satisfies `adjusted_p_value >= chi2_p_value`. -/
theorem C3_adjusted_ge_raw (p_values : List ℚ) (alpha : ℚ) (n_tests : ℕ)
    (hp : ∀ x ∈ p_values, 0 ≤ x ∧ x ≤ 1)
    (hm1 : 1 ≤ n_tests) (hmlen : p_values.length ≤ n_tests)
    (sf : ℚ → ℕ → ℚ) (hsf : ∀ s d, 0 ≤ sf s d ∧ sf s d ≤ 1)
    (t pr : List ℤ) (method : CorrectionMethod) (alpha2 : ℚ) :
    (∀ i, i < p_values.length →
        p_values.getD i 0 ≤ (apply_bonferroni p_values alpha n_tests).2.getD i 0
        ∧ p_values.getD i 0 ≤ (apply_benjamini_hochberg p_values alpha n_tests).2.getD i 1)
    ∧ (∀ res, evaluate sf t pr (some method) n_tests alpha2 = .ok res →
        res.metrics.chi2_p_value ≤ res.adjusted_p_value) := by
  constructor
  · intro i hi
    exact ⟨apply_bonferroni_adj_ge p_values alpha n_tests hp hm1 hi,
      apply_bh_adj_ge p_values alpha n_tests hp hmlen hi⟩
  · intro res hres
    cases hv : validateSeries t pr with
    | some e =>
      exfalso
      have : evaluate sf t pr (some method) n_tests alpha2 = .error e := by
        unfold evaluate
        rw [hv]
      rw [this] at hres
      exact absurd hres (by simp)
    | none =>
      have hlt : ¬ n_tests < 1 := by omega
      have hred : evaluate sf t pr (some method) n_tests alpha2
          = Except.ok
              { metrics := computeMetrics sf t pr
                adjusted_p_value := (applyCorrection method
                  [(computeMetrics sf t pr).chi2_p_value] alpha2 n_tests).2.getD 0 1
                significant := (applyCorrection method
                  [(computeMetrics sf t pr).chi2_p_value] alpha2 n_tests).1.getD 0 false
                n_tests := n_tests } := by
        have hifred : evaluate sf t pr (some method) n_tests alpha2
            = (if n_tests < 1 then
                Except.error (EvalError.correctionConfig
                  "declared family smaller than the supplied p-values")
              else
                Except.ok
                  { metrics := computeMetrics sf t pr
                    adjusted_p_value := (applyCorrection method
                      [(computeMetrics sf t pr).chi2_p_value] alpha2 n_tests).2.getD 0 1
                    significant := (applyCorrection method
                      [(computeMetrics sf t pr).chi2_p_value] alpha2 n_tests).1.getD 0 false
                    n_tests := n_tests }) := by
          unfold evaluate
          rw [hv]
        rw [hifred, if_neg hlt]
      rw [hred] at hres
      have hresval := (Except.ok.injEq _ _).mp hres
      subst hresval
      show (computeMetrics sf t pr).chi2_p_value
        ≤ (applyCorrection method
            [(computeMetrics sf t pr).chi2_p_value] alpha2 n_tests).2.getD 0 1
      have hpv : 0 ≤ (computeMetrics sf t pr).chi2_p_value
          ∧ (computeMetrics sf t pr).chi2_p_value ≤ 1 :=
        chi2_test_pvalue_bounds sf hsf t pr
      have hpl : ∀ x ∈ [(computeMetrics sf t pr).chi2_p_value], 0 ≤ x ∧ x ≤ 1 := by
        intro x hx
        rw [List.mem_singleton] at hx
        subst hx
        exact hpv
      have h0 : (0 : ℕ) < ([(computeMetrics sf t pr).chi2_p_value] : List ℚ).length := by
        simp
      cases method with
      | bonferroni =>
        have hb := apply_bonferroni_adj_ge
          [(computeMetrics sf t pr).chi2_p_value] alpha2 n_tests hpl hm1 h0
        have hlen : 0 < (apply_bonferroni
            [(computeMetrics sf t pr).chi2_p_value] alpha2 n_tests).2.length := by
          rw [apply_bonferroni_adj_length]
          simp
        rw [List.getD_eq_getElem _ _ hlen] at hb
        show (computeMetrics sf t pr).chi2_p_value
          ≤ (apply_bonferroni
              [(computeMetrics sf t pr).chi2_p_value] alpha2 n_tests).2.getD 0 1
        rw [List.getD_eq_getElem _ _ hlen]
        simpa using hb
      | benjamini_hochberg =>
        have hb := apply_bh_adj_ge
          [(computeMetrics sf t pr).chi2_p_value] alpha2 n_tests hpl
          (by simpa using hm1) h0
        simpa using hb

/-- Closed witness for C3 at concrete inputs. -/
theorem C3_adjusted_ge_raw_witness :
    ((∀ x ∈ [(1 : ℚ)/2], 0 ≤ x ∧ x ≤ 1) ∧ 1 ≤ 2 ∧ [(1 : ℚ)/2].length ≤ 2
      ∧ (∀ s : ℚ, ∀ d : ℕ, 0 ≤ (fun (_ : ℚ) (_ : ℕ) => (1 : ℚ)/2) s d
          ∧ (fun (_ : ℚ) (_ : ℕ) => (1 : ℚ)/2) s d ≤ 1))
    ∧ ((∀ i, i < [(1 : ℚ)/2].length →
        [(1 : ℚ)/2].getD i 0 ≤ (apply_bonferroni [(1 : ℚ)/2] (1/20) 2).2.getD i 0
        ∧ [(1 : ℚ)/2].getD i 0 ≤ (apply_benjamini_hochberg [(1 : ℚ)/2] (1/20) 2).2.getD i 1)
      ∧ (∀ res, evaluate (fun (_ : ℚ) (_ : ℕ) => (1 : ℚ)/2) [1] [0]
            (some .bonferroni) 2 (1/20) = .ok res →
          res.metrics.chi2_p_value ≤ res.adjusted_p_value)) :=
  ⟨⟨by intro x hx; rw [List.mem_singleton] at hx; subst hx; norm_num,
    by norm_num, by norm_num, by intro s d; norm_num⟩,
    C3_adjusted_ge_raw [(1 : ℚ)/2] (1/20) 2
      (by intro x hx; rw [List.mem_singleton] at hx; subst hx; norm_num)
      (by norm_num) (by norm_num)
      (fun _ _ => (1 : ℚ)/2) (by intro s d; norm_num)
      [1] [0] .bonferroni (1/20)⟩

/-! ## Variant comparison -/

/-- One row of the variant-comparison output. -/
structure VariantRow where
  model : String
  accuracy : ℚ
  f1_score : ℚ
  raw_p_value : ℚ
  adjusted_p_value : ℚ
  significant : Bool

/-- Row ordering of the final ranking: F1 descending, ties broken by higher
accuracy. -/
def rowOrder (a b : VariantRow) : Bool :=
  decide (b.f1_score < a.f1_score
    ∨ (a.f1_score = b.f1_score ∧ b.accuracy ≤ a.accuracy))

theorem rowOrder_trans (a b c : VariantRow)
    (hab : rowOrder a b = true) (hbc : rowOrder b c = true) :
    rowOrder a c = true := by
  rw [rowOrder, decide_eq_true_eq] at hab hbc ⊢
  rcases hab with h1 | ⟨h1, h1a⟩ <;> rcases hbc with h2 | ⟨h2, h2a⟩
  · exact Or.inl (lt_trans h2 h1)
  · exact Or.inl (h2 ▸ h1)
  · exact Or.inl (h1 ▸ h2)
  · exact Or.inr ⟨h1.trans h2, le_trans h2a h1a⟩

theorem rowOrder_total (a b : VariantRow) :
    (rowOrder a b || rowOrder b a) = true := by
  rw [Bool.or_eq_true, rowOrder, rowOrder, decide_eq_true_eq, decide_eq_true_eq]
  rcases lt_trichotomy a.f1_score b.f1_score with h | h | h
  · exact Or.inr (Or.inl h)
  · rcases le_total b.accuracy a.accuracy with ha | ha
    · exact Or.inl (Or.inr ⟨h, ha⟩)
    · exact Or.inr (Or.inr ⟨h.symm, ha⟩)
  · exact Or.inl (Or.inl h)

/-- The raw p-value family of a set of variants: each variant's own
chi-square p-value against the shared ground truth. -/
def variantRawPs (sf : ℚ → ℕ → ℚ) (y_true : List ℤ)
    (variants : List (String × List ℤ)) : List ℚ :=
  variants.map (fun v => (chi2_test sf y_true v.2).2)

/-- The per-variant rows before ranking: each variant evaluated
independently, then one correction applied across the whole family with
`n_tests` equal to the number of variants. -/
def variantRows (sf : ℚ → ℕ → ℚ) (y_true : List ℤ)
    (variants : List (String × List ℤ)) (method : CorrectionMethod)
    (alpha : ℚ) : List VariantRow :=
  (List.range variants.length).map (fun i =>
    { model := (variants.getD i ("", [])).1
      accuracy := accuracy y_true (variants.getD i ("", [])).2
      f1_score := (computeMetrics sf y_true (variants.getD i ("", [])).2).f1_avg
      raw_p_value := (variantRawPs sf y_true variants).getD i 1
      adjusted_p_value := (applyCorrection method
        (variantRawPs sf y_true variants) alpha variants.length).2.getD i 1
      significant := (applyCorrection method
        (variantRawPs sf y_true variants) alpha variants.length).1.getD i false })

/-- Modelled from the spec: `compare_variants(y_true, variants)`
(`compare_asmbtr_variants` in the missing module
`strategies/asmbtr/evaluation.py`): evaluate every variant independently,
apply exactly one correction across the whole family of raw p-values with
`n_tests` = number of variants, and rank by F1 descending with ties broken
by higher accuracy. -/
def compare_variants (sf : ℚ → ℕ → ℚ) (y_true : List ℤ)
    (variants : List (String × List ℤ)) (method : CorrectionMethod)
    (alpha : ℚ) : List VariantRow :=
  (variantRows sf y_true variants method alpha).mergeSort rowOrder

/-- C5: `compare_variants` returns exactly the per-variant rows (one row per
variant, each carrying that variant's own metrics and raw p-value, with the
adjusted p-value and flag taken from the single family correction with
`n_tests` = number of variants), sorted by F1 descending with ties broken by
higher accuracy. -/
theorem C5_compare_variants (sf : ℚ → ℕ → ℚ) (y_true : List ℤ)
    (variants : List (String × List ℤ)) (method : CorrectionMethod)
    (alpha : ℚ) (hne : variants ≠ []) :
    (compare_variants sf y_true variants method alpha).Perm
        (variantRows sf y_true variants method alpha)
    ∧ (compare_variants sf y_true variants method alpha).Pairwise
        (fun a b => b.f1_score < a.f1_score
          ∨ (a.f1_score = b.f1_score ∧ b.accuracy ≤ a.accuracy))
    ∧ (compare_variants sf y_true variants method alpha).length = variants.length
    ∧ ∀ row ∈ compare_variants sf y_true variants method alpha,
        ∃ i, i < variants.length
          ∧ row.model = (variants.getD i ("", [])).1
          ∧ row.accuracy = accuracy y_true (variants.getD i ("", [])).2
          ∧ row.f1_score = (computeMetrics sf y_true (variants.getD i ("", [])).2).f1_avg
          ∧ row.raw_p_value = (variantRawPs sf y_true variants).getD i 1
          ∧ row.adjusted_p_value = (applyCorrection method
              (variantRawPs sf y_true variants) alpha variants.length).2.getD i 1
          ∧ row.significant = (applyCorrection method
              (variantRawPs sf y_true variants) alpha variants.length).1.getD i false := by
  have hperm : (compare_variants sf y_true variants method alpha).Perm
      (variantRows sf y_true variants method alpha) :=
    List.mergeSort_perm _ _
  refine ⟨hperm, ?_, ?_, ?_⟩
  · have hs := @List.sorted_mergeSort VariantRow rowOrder
      rowOrder_trans rowOrder_total (variantRows sf y_true variants method alpha)
    refine hs.imp ?_
    intro a b hab
    rw [rowOrder, decide_eq_true_eq] at hab
    exact hab
  · rw [hperm.length_eq, variantRows, List.length_map, List.length_range]
  · intro row hrow
    have hmem : row ∈ variantRows sf y_true variants method alpha :=
      hperm.mem_iff.mp hrow
    rw [variantRows, List.mem_map] at hmem
    obtain ⟨i, hi, heq⟩ := hmem
    rw [List.mem_range] at hi
    exact ⟨i, hi, by rw [← heq], by rw [← heq], by rw [← heq], by rw [← heq],
      by rw [← heq], by rw [← heq]⟩

/-- Closed witness for C5 at a concrete two-variant comparison. -/
theorem C5_compare_variants_witness :
    ([("a", [1, 1]), ("b", [1, -1])] : List (String × List ℤ)) ≠ []
    ∧ ((compare_variants (fun _ _ => 1/2) [1, -1]
          [("a", [1, 1]), ("b", [1, -1])] .bonferroni (1/20)).Perm
        (variantRows (fun _ _ => 1/2) [1, -1]
          [("a", [1, 1]), ("b", [1, -1])] .bonferroni (1/20))
      ∧ (compare_variants (fun _ _ => 1/2) [1, -1]
          [("a", [1, 1]), ("b", [1, -1])] .bonferroni (1/20)).Pairwise
          (fun a b => b.f1_score < a.f1_score
            ∨ (a.f1_score = b.f1_score ∧ b.accuracy ≤ a.accuracy))
      ∧ (compare_variants (fun _ _ => 1/2) [1, -1]
          [("a", [1, 1]), ("b", [1, -1])] .bonferroni (1/20)).length
        = ([("a", [1, 1]), ("b", [1, -1])] : List (String × List ℤ)).length
      ∧ ∀ row ∈ compare_variants (fun _ _ => 1/2) [1, -1]
          [("a", [1, 1]), ("b", [1, -1])] .bonferroni (1/20),
          ∃ i, i < ([("a", [1, 1]), ("b", [1, -1])] : List (String × List ℤ)).length
            ∧ row.model = (([("a", [1, 1]), ("b", [1, -1])]
                : List (String × List ℤ)).getD i ("", [])).1
            ∧ row.accuracy = accuracy [1, -1] (([("a", [1, 1]), ("b", [1, -1])]
                : List (String × List ℤ)).getD i ("", [])).2
            ∧ row.f1_score = (computeMetrics (fun _ _ => 1/2) [1, -1]
                (([("a", [1, 1]), ("b", [1, -1])]
                  : List (String × List ℤ)).getD i ("", [])).2).f1_avg
            ∧ row.raw_p_value = (variantRawPs (fun _ _ => 1/2) [1, -1]
                [("a", [1, 1]), ("b", [1, -1])]).getD i 1
            ∧ row.adjusted_p_value = (applyCorrection .bonferroni
                (variantRawPs (fun _ _ => 1/2) [1, -1]
                  [("a", [1, 1]), ("b", [1, -1])]) (1/20)
                ([("a", [1, 1]), ("b", [1, -1])]
                  : List (String × List ℤ)).length).2.getD i 1
            ∧ row.significant = (applyCorrection .bonferroni
                (variantRawPs (fun _ _ => 1/2) [1, -1]
                  [("a", [1, 1]), ("b", [1, -1])]) (1/20)
                ([("a", [1, 1]), ("b", [1, -1])]
                  : List (String × List ℤ)).length).1.getD i false) :=
  ⟨by simp,
    C5_compare_variants (fun _ _ => 1/2) [1, -1]
      [("a", [1, 1]), ("b", [1, -1])] .bonferroni (1/20) (by simp)⟩

/-! ## Segmented evaluation -/

/-- The distinct segment identifiers, in order of first appearance. -/
def firstAppear : List String → List String
  | [] => []
  | s :: rest => s :: (firstAppear rest).filter (fun x => !(x == s))

theorem mem_firstAppear (l : List String) (x : String) :
    x ∈ firstAppear l ↔ x ∈ l := by
  induction l with
  | nil => simp [firstAppear]
  | cons s rest ih =>
    rw [firstAppear, List.mem_cons, List.mem_cons]
    constructor
    · rintro (rfl | hx)
      · exact Or.inl rfl
      · rw [List.mem_filter, ih] at hx
        exact Or.inr hx.1
    · rintro (rfl | hx)
      · exact Or.inl rfl
      · by_cases hxs : x = s
        · exact Or.inl hxs
        · refine Or.inr ?_
          rw [List.mem_filter, ih]
          exact ⟨hx, by simpa using hxs⟩

theorem nodup_firstAppear (l : List String) : (firstAppear l).Nodup := by
  induction l with
  | nil => simp [firstAppear]
  | cons s rest ih =>
    rw [firstAppear, List.nodup_cons]
    refine ⟨?_, ih.filter _⟩
    intro hmem
    rw [List.mem_filter] at hmem
    simp at hmem

theorem length_firstAppear_pos {l : List String} (hne : l ≠ []) :
    0 < (firstAppear l).length := by
  cases l with
  | nil => exact absurd rfl hne
  | cons s rest => simp [firstAppear]

/-- The iteration keys are ordered by first appearance in the input. -/
theorem pairwise_indexOf_firstAppear (l : List String) :
    (firstAppear l).Pairwise (fun a b => l.indexOf a < l.indexOf b) := by
  induction l with
  | nil => simp [firstAppear]
  | cons s rest ih =>
    rw [firstAppear, List.pairwise_cons]
    constructor
    · intro b hb
      rw [List.mem_filter] at hb
      have hbs : s ≠ b := by
        intro h
        subst h
        simp at hb
      rw [List.indexOf_cons_self, List.indexOf_cons_ne rest hbs]
      omega
    · have hsub := List.filter_sublist (p := fun x => !(x == s)) (firstAppear rest)
      have hpw := List.Pairwise.sublist hsub ih
      refine List.Pairwise.imp_of_mem ?_ hpw
      intro a b ha hb hab
      have has : s ≠ a := by
        intro h
        subst h
        rw [List.mem_filter] at ha
        simp at ha
      have hbs : s ≠ b := by
        intro h
        subst h
        rw [List.mem_filter] at hb
        simp at hb
      rw [List.indexOf_cons_ne rest has, List.indexOf_cons_ne rest hbs]
      omega

theorem map_range_getD {α : Type} (l : List α) (d : α) :
    (List.range l.length).map (fun i => l.getD i d) = l := by
  apply List.ext_getElem (by simp)
  intro i h1 h2
  rw [List.getElem_map, List.getElem_range, List.getD_eq_getElem _ _ h2]

/-- One zipped sample row per position: (segment id, (actual, predicted)). -/
def segmentSamples (ids : List String) (pred actual : List ℤ) :
    List (String × ℤ × ℤ) :=
  ids.zip (actual.zip pred)

/-- The sample rows belonging to one segment. -/
def segRows (ids : List String) (pred actual : List ℤ) (s : String) :
    List (String × ℤ × ℤ) :=
  (segmentSamples ids pred actual).filter (fun e => e.1 == s)

/-- One segment's actual labels. -/
def segTrue (ids : List String) (pred actual : List ℤ) (s : String) : List ℤ :=
  (segRows ids pred actual s).map (fun e => e.2.1)

/-- One segment's predicted labels. -/
def segPred (ids : List String) (pred actual : List ℤ) (s : String) : List ℤ :=
  (segRows ids pred actual s).map (fun e => e.2.2)

/-- One segment's raw chi-square p-value. -/
def segRawP (sf : ℚ → ℕ → ℚ) (ids : List String) (pred actual : List ℤ)
    (s : String) : ℚ :=
  (chi2_test sf (segTrue ids pred actual s) (segPred ids pred actual s)).2

/-- The one correction family: every distinct segment's raw p-value, in
first-appearance order. -/
def segFamily (sf : ℚ → ℕ → ℚ) (ids : List String) (pred actual : List ℤ) :
    List ℚ :=
  (firstAppear ids).map (segRawP sf ids pred actual)

/-- The per-segment result record. -/
structure SegmentResult where
  sample_count : ℕ
  metrics : EvaluationMetrics
  raw_p_value : ℚ
  adjusted_p_value : ℚ
  significant : Bool

/-- Modelled from the spec: `evaluate_segments(segment_ids, y_pred, y_true,
correction, alpha)` (`evaluate_state_predictions` in the missing module
`strategies/asmbtr/evaluation.py`): group samples by segment identifier in
order of first appearance, evaluate each segment independently, collect all
segments' raw p-values into one correction family with `n_tests` equal to
the number of distinct segments, apply the requested correction once across
that family, and return the mapping segment id to `SegmentResult`. -/
def evaluate_segments (sf : ℚ → ℕ → ℚ) (ids : List String)
    (pred actual : List ℤ) (method : CorrectionMethod) (alpha : ℚ) :
    List (String × SegmentResult) :=
  let keys := firstAppear ids
  let family := segFamily sf ids pred actual
  let corrected := applyCorrection method family alpha keys.length
  (List.range keys.length).map (fun i =>
    (keys.getD i "",
      { sample_count := (segRows ids pred actual (keys.getD i "")).length
        metrics := computeMetrics sf
          (segTrue ids pred actual (keys.getD i ""))
          (segPred ids pred actual (keys.getD i ""))
        raw_p_value := family.getD i 1
        adjusted_p_value := corrected.2.getD i 1
        significant := corrected.1.getD i false }))

theorem evaluate_segments_map_fst (sf : ℚ → ℕ → ℚ) (ids : List String)
    (pred actual : List ℤ) (method : CorrectionMethod) (alpha : ℚ) :
    (evaluate_segments sf ids pred actual method alpha).map Prod.fst
      = firstAppear ids := by
  rw [evaluate_segments]
  rw [List.map_map]
  exact map_range_getD (firstAppear ids) ""

/-- C6: every distinct segment identifier occurring in `segment_ids` —
including segments with a single sample — appears as a key of the output
mapping, the keys are exactly the distinct identifiers, every segment
contributes its raw p-value to the single correction family (at its own
position), and the family used for the one correction has `n_tests` equal
to the number of distinct segments. -/
theorem C6_segments_complete (sf : ℚ → ℕ → ℚ) (ids : List String)
    (pred actual : List ℤ) (method : CorrectionMethod) (alpha : ℚ) :
    (evaluate_segments sf ids pred actual method alpha).map Prod.fst
        = firstAppear ids
    ∧ (∀ s ∈ ids, s ∈ (evaluate_segments sf ids pred actual method alpha).map Prod.fst)
    ∧ ((evaluate_segments sf ids pred actual method alpha).map Prod.fst).Nodup
    ∧ (evaluate_segments sf ids pred actual method alpha).map
          (fun e => e.2.raw_p_value)
        = segFamily sf ids pred actual
    ∧ (segFamily sf ids pred actual).length = (firstAppear ids).length
    ∧ ∀ e ∈ evaluate_segments sf ids pred actual method alpha,
        ∃ j, j < (firstAppear ids).length
          ∧ e.1 = (firstAppear ids).getD j ""
          ∧ e.2.raw_p_value = (segFamily sf ids pred actual).getD j 1
          ∧ e.2.adjusted_p_value = (applyCorrection method
              (segFamily sf ids pred actual) alpha
              (firstAppear ids).length).2.getD j 1
          ∧ e.2.significant = (applyCorrection method
              (segFamily sf ids pred actual) alpha
              (firstAppear ids).length).1.getD j false := by
  have hfst := evaluate_segments_map_fst sf ids pred actual method alpha
  have hfamlen : (segFamily sf ids pred actual).length
      = (firstAppear ids).length := by
    rw [segFamily, List.length_map]
  refine ⟨hfst, ?_, ?_, ?_, hfamlen, ?_⟩
  · intro s hs
    rw [hfst, mem_firstAppear]
    exact hs
  · rw [hfst]
    exact nodup_firstAppear ids
  · have hdef : (evaluate_segments sf ids pred actual method alpha).map
          (fun e => e.2.raw_p_value)
        = (List.range (firstAppear ids).length).map
            (fun i => (segFamily sf ids pred actual).getD i 1) := by
      rw [evaluate_segments, List.map_map]
      rfl
    rw [hdef, ← hfamlen]
    exact map_range_getD (segFamily sf ids pred actual) 1
  · intro e he
    rw [evaluate_segments, List.mem_map] at he
    obtain ⟨i, hi, heq⟩ := he
    rw [List.mem_range] at hi
    exact ⟨i, hi, by rw [← heq], by rw [← heq], by rw [← heq], by rw [← heq]⟩

/-! ## Tie-independence of the BH outputs -/

/-- Rank-free BH adjusted value of a p-value `v` within the ascending-sorted
family `svals`: the capped suffix minimum taken from `v`'s first sorted
rank.  Under ties this is independent of tie order, so it is a function of
`v` and the multiset of family values only. -/
def bhAdjVal (m : ℕ) (svals : List ℚ) (v : ℚ) : ℚ :=
  bhMinFrom m (svals.countP (fun q => decide (q < v)) + 1)
    (svals.drop (svals.countP (fun q => decide (q < v))))

/-- Walking the BH suffix minimum across a block of tied values does not
change it. -/
theorem bhMinFrom_drop_chain (m : ℕ) (svals : List ℚ) (v : ℚ) (hv : 0 ≤ v)
    {c r : ℕ} (hcr : c ≤ r) (hr : r < svals.length)
    (hval : ∀ t, c ≤ t → t ≤ r → ∀ ht : t < svals.length, svals.get ⟨t, ht⟩ = v) :
    bhMinFrom m (1 + c) (svals.drop c) = bhMinFrom m (1 + r) (svals.drop r) := by
  induction r with
  | zero =>
    have hc0 : c = 0 := by omega
    subst hc0
    rfl
  | succ n ih =>
    rcases Nat.eq_or_lt_of_le hcr with hceq | hclt
    · subst hceq
      rfl
    · have hcn : c ≤ n := by omega
      have hn : n < svals.length := by omega
      have hstep : bhMinFrom m (1 + n) (svals.drop n)
          = bhMinFrom m (1 + (n + 1)) (svals.drop (n + 1)) := by
        have hdn : svals.drop n = svals.get ⟨n, hn⟩ :: svals.drop (n + 1) := by
          rw [List.drop_eq_getElem_cons hn]
          rfl
        have hdn1 : svals.drop (n + 1)
            = svals.get ⟨n + 1, hr⟩ :: svals.drop (n + 2) := by
          rw [List.drop_eq_getElem_cons hr]
          rfl
        have hvn : svals.get ⟨n, hn⟩ = v := hval n hcn (by omega) hn
        have hvn1 : svals.get ⟨n + 1, hr⟩ = v := hval (n + 1) (by omega) le_rfl hr
        rw [hdn, hdn1, hvn, hvn1]
        have := bhMinFrom_cons_cons m (1 + n) v (svals.drop (n + 2))
          (by omega) hv
        rw [this]
        have hnat : 1 + n + 1 = 1 + (n + 1) := by omega
        rw [hnat]
      have hih := ih hcn hn (fun t hct htn ht => hval t hct (by omega) ht)
      rw [hih, hstep]

/-- The mapped-back BH adjusted value at an index is the rank-free,
tie-independent `bhAdjVal` of that index's own p-value and the sorted
family. -/
theorem apply_bh_adj_getD_eq_bhAdjVal (p_values : List ℚ) (alpha : ℚ)
    (n_tests : ℕ) (hp : ∀ x ∈ p_values, 0 ≤ x)
    {i : ℕ} (hi : i < p_values.length) :
    (apply_benjamini_hochberg p_values alpha n_tests).2.getD i 1
      = bhAdjVal n_tests (sortedVals p_values) (p_values.getD i 0) := by
  obtain ⟨r, hr, hval, _, hadj⟩ := apply_bh_getD_spec p_values alpha n_tests hi
  have hval' : (sortedVals p_values).get ⟨r, hr⟩ = p_values[i] := hval
  rw [List.getD_eq_getElem _ _ hi]
  have hv0 : (0 : ℚ) ≤ p_values[i] := hp _ (List.getElem_mem hi)
  set q : ℚ → Bool := fun x => decide (x < p_values[i]) with hqdef
  have hq : ∀ a b : ℚ, a ≤ b → q b = true → q a = true := by
    intro a b hab hb
    rw [hqdef, decide_eq_true_eq] at hb ⊢
    exact lt_of_le_of_lt hab hb
  set c := (sortedVals p_values).countP q with hcdef
  have hcr : c ≤ r := by
    by_contra hgt
    push_neg at hgt
    have := (sorted_pred_iff_countP q hq (sortedVals p_values)
      (sortedVals_pairwise p_values) hr).mpr (by omega)
    rw [hqdef, decide_eq_true_eq, hval'] at this
    exact lt_irrefl _ this
  have hsandwich : ∀ t, c ≤ t → t ≤ r → ∀ ht : t < (sortedVals p_values).length,
      (sortedVals p_values).get ⟨t, ht⟩ = p_values[i] := by
    intro t hct htr ht
    have hle : (sortedVals p_values).get ⟨t, ht⟩ ≤ p_values[i] := by
      rcases Nat.eq_or_lt_of_le htr with rfl | hlt
      · rw [hval']
      · rw [← hval']
        exact List.pairwise_iff_get.mp (sortedVals_pairwise p_values)
          ⟨t, ht⟩ ⟨r, hr⟩ (Fin.mk_lt_mk.mpr hlt)
    have hge : ¬ (sortedVals p_values).get ⟨t, ht⟩ < p_values[i] := by
      intro hlt
      have := (sorted_pred_iff_countP q hq (sortedVals p_values)
        (sortedVals_pairwise p_values) ht).mp (by
          rw [hqdef, decide_eq_true_eq]
          exact hlt)
      omega
    exact le_antisymm hle (not_lt.mp hge)
  have hchain := bhMinFrom_drop_chain n_tests (sortedVals p_values)
    p_values[i] hv0 hcr hr hsandwich
  rw [hadj, ← hchain, bhAdjVal]
  have hcomm : c + 1 = 1 + c := by omega
  rw [← hqdef, ← hcdef, hcomm]

/-- The confusion matrix of a segment's extracted series counts directly
over the segment's sample rows. -/
theorem cmCount_map (l : List (String × ℤ × ℤ)) (a b : ℤ) :
    cmCount (l.map (fun e => e.2.1)) (l.map (fun e => e.2.2)) a b
      = l.countP (fun e => e.2.1 == a && e.2.2 == b) := by
  rw [cmCount, List.zip_map', List.countP_map]
  rfl

/-- Every metric and the chi-square test are functions of the confusion
matrix alone. -/
theorem metrics_eq_of_cmCount_eq (sf : ℚ → ℕ → ℚ) (t₁ p₁ t₂ p₂ : List ℤ)
    (h : cmCount t₁ p₁ = cmCount t₂ p₂) :
    computeMetrics sf t₁ p₁ = computeMetrics sf t₂ p₂
    ∧ accuracy t₁ p₁ = accuracy t₂ p₂
    ∧ chi2_test sf t₁ p₁ = chi2_test sf t₂ p₂ := by
  have hrow : rowSum t₁ p₁ = rowSum t₂ p₂ := by
    funext a
    simp only [rowSum, h]
  have hcol : colSum t₁ p₁ = colSum t₂ p₂ := by
    funext b
    simp only [colSum, h]
  have htot : cmTotal t₁ p₁ = cmTotal t₂ p₂ := by
    simp only [cmTotal, hrow]
  have htr : cmTrace t₁ p₁ = cmTrace t₂ p₂ := by
    simp only [cmTrace, h]
  have hacc : accuracy t₁ p₁ = accuracy t₂ p₂ := by
    simp only [accuracy, htr, htot]
  have hexp : expectedCell t₁ p₁ = expectedCell t₂ p₂ := by
    funext a b
    simp only [expectedCell, hrow, hcol, htot]
  have hprec : precision_c t₁ p₁ = precision_c t₂ p₂ := by
    funext c
    simp only [precision_c, hcol, h]
  have hrec : recall_c t₁ p₁ = recall_c t₂ p₂ := by
    funext c
    simp only [recall_c, hrow, h]
  have hf1 : f1_c t₁ p₁ = f1_c t₂ p₂ := by
    funext c
    simp only [f1_c, hprec, hrec]
  have hstat : chi2Statistic t₁ p₁ = chi2Statistic t₂ p₂ := by
    simp only [chi2Statistic, hexp, h]
  have hdof : chi2Dof t₁ p₁ = chi2Dof t₂ p₂ := by
    simp only [chi2Dof, hrow, hcol]
  have hallE : allExpectedZero t₁ p₁ = allExpectedZero t₂ p₂ := by
    simp only [allExpectedZero, hexp]
  have htest : chi2_test sf t₁ p₁ = chi2_test sf t₂ p₂ := by
    simp only [chi2_test, hallE, hstat, hdof]
  refine ⟨?_, hacc, htest⟩
  simp only [computeMetrics, hacc, hprec, hrec, hf1, htest, h]

/-- A permutation of the zipped sample rows permutes every segment's rows. -/
theorem segRows_perm {ids₁ : List String} {pred₁ actual₁ : List ℤ}
    {ids₂ : List String} {pred₂ actual₂ : List ℤ}
    (hperm : (segmentSamples ids₁ pred₁ actual₁).Perm
      (segmentSamples ids₂ pred₂ actual₂)) (s : String) :
    (segRows ids₁ pred₁ actual₁ s).Perm (segRows ids₂ pred₂ actual₂ s) :=
  hperm.filter _

/-- Per-segment content is permutation-invariant: the extracted metrics,
raw p-value and sample count of a segment agree across sample orders. -/
theorem segContent_eq {ids₁ : List String} {pred₁ actual₁ : List ℤ}
    {ids₂ : List String} {pred₂ actual₂ : List ℤ} (sf : ℚ → ℕ → ℚ)
    (hperm : (segmentSamples ids₁ pred₁ actual₁).Perm
      (segmentSamples ids₂ pred₂ actual₂)) (s : String) :
    computeMetrics sf (segTrue ids₁ pred₁ actual₁ s) (segPred ids₁ pred₁ actual₁ s)
        = computeMetrics sf (segTrue ids₂ pred₂ actual₂ s) (segPred ids₂ pred₂ actual₂ s)
    ∧ segRawP sf ids₁ pred₁ actual₁ s = segRawP sf ids₂ pred₂ actual₂ s
    ∧ (segRows ids₁ pred₁ actual₁ s).length = (segRows ids₂ pred₂ actual₂ s).length := by
  have hrows := segRows_perm hperm s
  have hcm : cmCount (segTrue ids₁ pred₁ actual₁ s) (segPred ids₁ pred₁ actual₁ s)
      = cmCount (segTrue ids₂ pred₂ actual₂ s) (segPred ids₂ pred₂ actual₂ s) := by
    funext a b
    rw [segTrue, segPred, segTrue, segPred, cmCount_map, cmCount_map]
    exact hrows.countP_eq _
  obtain ⟨hmets, _, htest⟩ := metrics_eq_of_cmCount_eq sf _ _ _ _ hcm
  refine ⟨hmets, ?_, hrows.length_eq⟩
  rw [segRawP, segRawP, htest]

/-- Sorting is canonical: permuted families share one sorted value list. -/
theorem sortedVals_eq_of_perm {p₁ p₂ : List ℚ} (hperm : p₁.Perm p₂) :
    sortedVals p₁ = sortedVals p₂ :=
  List.eq_of_perm_of_sorted
    ((sortedVals_perm p₁).trans (hperm.trans (sortedVals_perm p₂).symm))
    (sortedVals_pairwise p₁) (sortedVals_pairwise p₂)

/-- `bhSigVal` depends only on the multiset of family values. -/
theorem bhSigVal_perm {p₁ p₂ : List ℚ} (hperm : p₁.Perm p₂) (alpha : ℚ)
    (m : ℕ) (v : ℚ) : bhSigVal p₁ alpha m v = bhSigVal p₂ alpha m v := by
  have hfun : (fun j => decide (v ≤ ((j + 1 : ℕ) : ℚ) / (m : ℚ) * alpha)
      && decide (j + 1 ≤ p₁.countP
        (fun q => decide (q ≤ ((j + 1 : ℕ) : ℚ) / (m : ℚ) * alpha))))
      = (fun j => decide (v ≤ ((j + 1 : ℕ) : ℚ) / (m : ℚ) * alpha)
      && decide (j + 1 ≤ p₂.countP
        (fun q => decide (q ≤ ((j + 1 : ℕ) : ℚ) / (m : ℚ) * alpha)))) := by
    funext j
    rw [hperm.countP_eq]
  rw [bhSigVal, bhSigVal, hperm.length_eq, hfun]

/-- The p-value the chi-square test reports is non-negative whenever the
survival function is. -/
theorem chi2_test_pvalue_nonneg (sf : ℚ → ℕ → ℚ)
    (hsf : ∀ s d, 0 ≤ sf s d) (t p : List ℤ) : 0 ≤ (chi2_test sf t p).2 := by
  rw [chi2_test]
  by_cases h : allExpectedZero t p = true
  · rw [if_pos h]
    norm_num
  · rw [if_neg h]
    exact hsf _ _

theorem segFamily_nonneg (sf : ℚ → ℕ → ℚ) (hsf : ∀ s d, 0 ≤ sf s d)
    (ids : List String) (pred actual : List ℤ) :
    ∀ x ∈ segFamily sf ids pred actual, 0 ≤ x := by
  intro x hx
  rw [segFamily, List.mem_map] at hx
  obtain ⟨s, _, rfl⟩ := hx
  exact chi2_test_pvalue_nonneg sf hsf _ _

theorem segFamily_getD (sf : ℚ → ℕ → ℚ) (ids : List String)
    (pred actual : List ℤ) {i : ℕ} (hi : i < (firstAppear ids).length) (d : ℚ) :
    (segFamily sf ids pred actual).getD i d
      = segRawP sf ids pred actual ((firstAppear ids).getD i "") := by
  rw [segFamily, List.getD_eq_getElem?_getD, List.getElem?_map,
    List.getElem?_eq_getElem hi, List.getD_eq_getElem _ _ hi]
  rfl

/-- Membership in the segment output pins down the entry's position and
content. -/
theorem evaluate_segments_mem (sf : ℚ → ℕ → ℚ) (ids : List String)
    (pred actual : List ℤ) (method : CorrectionMethod) (alpha : ℚ)
    {s : String} {r : SegmentResult}
    (hmem : (s, r) ∈ evaluate_segments sf ids pred actual method alpha) :
    ∃ i, i < (firstAppear ids).length
      ∧ (firstAppear ids).getD i "" = s
      ∧ r.sample_count = (segRows ids pred actual s).length
      ∧ r.metrics = computeMetrics sf (segTrue ids pred actual s)
          (segPred ids pred actual s)
      ∧ r.raw_p_value = segRawP sf ids pred actual s
      ∧ r.adjusted_p_value = (applyCorrection method
          (segFamily sf ids pred actual) alpha
          (firstAppear ids).length).2.getD i 1
      ∧ r.significant = (applyCorrection method
          (segFamily sf ids pred actual) alpha
          (firstAppear ids).length).1.getD i false := by
  rw [evaluate_segments, List.mem_map] at hmem
  obtain ⟨i, hi, heq⟩ := hmem
  rw [List.mem_range] at hi
  rw [Prod.mk.injEq] at heq
  obtain ⟨hkey, hrec⟩ := heq
  refine ⟨i, hi, hkey, ?_, ?_, ?_, ?_, ?_⟩
  · rw [← hrec, ← hkey]
  · rw [← hrec, ← hkey]
  · rw [← hrec, segFamily_getD sf ids pred actual hi, hkey]
  · rw [← hrec]
  · rw [← hrec]

/-- C10: the iteration order of the segment mapping is the order of first
appearance of each identifier, and the content of each `SegmentResult` does
not depend on that order: inputs whose zipped sample rows are permutations
of one another assign every shared segment identifier identical results. -/
theorem C10_segment_order_content (sf : ℚ → ℕ → ℚ) (hsf : ∀ s d, 0 ≤ sf s d)
    (ids₁ : List String) (pred₁ actual₁ : List ℤ)
    (ids₂ : List String) (pred₂ actual₂ : List ℤ)
    (method : CorrectionMethod) (alpha : ℚ)
    (hl₁p : ids₁.length = pred₁.length) (hl₁a : ids₁.length = actual₁.length)
    (hl₂p : ids₂.length = pred₂.length) (hl₂a : ids₂.length = actual₂.length)
    (hperm : (segmentSamples ids₁ pred₁ actual₁).Perm
      (segmentSamples ids₂ pred₂ actual₂)) :
    ((evaluate_segments sf ids₁ pred₁ actual₁ method alpha).map Prod.fst
        = firstAppear ids₁
      ∧ (firstAppear ids₁).Pairwise (fun a b => ids₁.indexOf a < ids₁.indexOf b))
    ∧ ∀ s : String, ∀ r₁ r₂ : SegmentResult,
        (s, r₁) ∈ evaluate_segments sf ids₁ pred₁ actual₁ method alpha →
        (s, r₂) ∈ evaluate_segments sf ids₂ pred₂ actual₂ method alpha →
        r₁ = r₂ := by
  refine ⟨⟨evaluate_segments_map_fst sf ids₁ pred₁ actual₁ method alpha,
    pairwise_indexOf_firstAppear ids₁⟩, ?_⟩
  intro s r₁ r₂ hmem₁ hmem₂
  obtain ⟨i, hi, hkey₁, hsc₁, hmet₁, hraw₁, hadj₁, hsig₁⟩ :=
    evaluate_segments_mem sf ids₁ pred₁ actual₁ method alpha hmem₁
  obtain ⟨j, hj, hkey₂, hsc₂, hmet₂, hraw₂, hadj₂, hsig₂⟩ :=
    evaluate_segments_mem sf ids₂ pred₂ actual₂ method alpha hmem₂
  have hids : ids₁.Perm ids₂ := by
    have h₁ : (segmentSamples ids₁ pred₁ actual₁).map Prod.fst = ids₁ := by
      rw [segmentSamples]
      refine List.map_fst_zip ids₁ _ ?_
      rw [List.length_zip]
      omega
    have h₂ : (segmentSamples ids₂ pred₂ actual₂).map Prod.fst = ids₂ := by
      rw [segmentSamples]
      refine List.map_fst_zip ids₂ _ ?_
      rw [List.length_zip]
      omega
    have := hperm.map Prod.fst
    rw [h₁, h₂] at this
    exact this
  have hkeys : (firstAppear ids₁).Perm (firstAppear ids₂) := by
    rw [List.perm_ext_iff_of_nodup (nodup_firstAppear ids₁) (nodup_firstAppear ids₂)]
    intro a
    rw [mem_firstAppear, mem_firstAppear]
    exact hids.mem_iff
  have hm : (firstAppear ids₁).length = (firstAppear ids₂).length :=
    hkeys.length_eq
  have hrawfun : segRawP sf ids₁ pred₁ actual₁ = segRawP sf ids₂ pred₂ actual₂ := by
    funext u
    exact (segContent_eq sf hperm u).2.1
  have hfam : (segFamily sf ids₁ pred₁ actual₁).Perm
      (segFamily sf ids₂ pred₂ actual₂) := by
    simp only [segFamily]
    rw [hrawfun]
    exact hkeys.map _
  have hcontent := segContent_eq sf hperm s
  have hrawval : segRawP sf ids₁ pred₁ actual₁ s
      = segRawP sf ids₂ pred₂ actual₂ s := hcontent.2.1
  -- family values at the two positions agree
  have hfam₁len : i < (segFamily sf ids₁ pred₁ actual₁).length := by
    rw [segFamily, List.length_map]
    exact hi
  have hfam₂len : j < (segFamily sf ids₂ pred₂ actual₂).length := by
    rw [segFamily, List.length_map]
    exact hj
  have hval₁ : (segFamily sf ids₁ pred₁ actual₁).getD i 0
      = segRawP sf ids₁ pred₁ actual₁ s := by
    rw [segFamily_getD sf ids₁ pred₁ actual₁ hi, hkey₁]
  have hval₂ : (segFamily sf ids₂ pred₂ actual₂).getD j 0
      = segRawP sf ids₂ pred₂ actual₂ s := by
    rw [segFamily_getD sf ids₂ pred₂ actual₂ hj, hkey₂]
  have hm₁pos : 1 ≤ (firstAppear ids₁).length := by omega
  have hadjeq : r₁.adjusted_p_value = r₂.adjusted_p_value := by
    rw [hadj₁, hadj₂]
    cases method with
    | bonferroni =>
      show (apply_bonferroni (segFamily sf ids₁ pred₁ actual₁) alpha
          (firstAppear ids₁).length).2.getD i 1
        = (apply_bonferroni (segFamily sf ids₂ pred₂ actual₂) alpha
          (firstAppear ids₂).length).2.getD j 1
      have hb₁ : i < (apply_bonferroni (segFamily sf ids₁ pred₁ actual₁) alpha
          (firstAppear ids₁).length).2.length := by
        rw [apply_bonferroni_adj_length]
        exact hfam₁len
      have hb₂ : j < (apply_bonferroni (segFamily sf ids₂ pred₂ actual₂) alpha
          (firstAppear ids₂).length).2.length := by
        rw [apply_bonferroni_adj_length]
        exact hfam₂len
      rw [List.getD_eq_getElem _ _ hb₁, List.getD_eq_getElem _ _ hb₂]
      rw [← List.getD_eq_getElem _ 0 hb₁, ← List.getD_eq_getElem _ 0 hb₂]
      rw [apply_bonferroni_adj_getD _ alpha _ hfam₁len,
        apply_bonferroni_adj_getD _ alpha _ hfam₂len]
      rw [hval₁, hval₂, hrawval, hm]
    | benjamini_hochberg =>
      show (apply_benjamini_hochberg (segFamily sf ids₁ pred₁ actual₁) alpha
          (firstAppear ids₁).length).2.getD i 1
        = (apply_benjamini_hochberg (segFamily sf ids₂ pred₂ actual₂) alpha
          (firstAppear ids₂).length).2.getD j 1
      rw [apply_bh_adj_getD_eq_bhAdjVal _ alpha _
          (segFamily_nonneg sf hsf ids₁ pred₁ actual₁) hfam₁len,
        apply_bh_adj_getD_eq_bhAdjVal _ alpha _
          (segFamily_nonneg sf hsf ids₂ pred₂ actual₂) hfam₂len]
      rw [hval₁, hval₂, hrawval, hm, sortedVals_eq_of_perm hfam]
  have hsigeq : r₁.significant = r₂.significant := by
    rw [hsig₁, hsig₂]
    cases method with
    | bonferroni =>
      show (apply_bonferroni (segFamily sf ids₁ pred₁ actual₁) alpha
          (firstAppear ids₁).length).1.getD i false
        = (apply_bonferroni (segFamily sf ids₂ pred₂ actual₂) alpha
          (firstAppear ids₂).length).1.getD j false
      rw [apply_bonferroni_sig_getD _ alpha _ hfam₁len,
        apply_bonferroni_sig_getD _ alpha _ hfam₂len]
      rw [apply_bonferroni_adj_getD _ alpha _ hfam₁len,
        apply_bonferroni_adj_getD _ alpha _ hfam₂len]
      rw [hval₁, hval₂, hrawval, hm]
    | benjamini_hochberg =>
      show (apply_benjamini_hochberg (segFamily sf ids₁ pred₁ actual₁) alpha
          (firstAppear ids₁).length).1.getD i false
        = (apply_benjamini_hochberg (segFamily sf ids₂ pred₂ actual₂) alpha
          (firstAppear ids₂).length).1.getD j false
      rw [apply_bh_sig_getD_eq_bhSigVal _ alpha _
          (segFamily_nonneg sf hsf ids₁ pred₁ actual₁) hm₁pos hfam₁len,
        apply_bh_sig_getD_eq_bhSigVal _ alpha _
          (segFamily_nonneg sf hsf ids₂ pred₂ actual₂) (by omega) hfam₂len]
      rw [hval₁, hval₂, hrawval, hm]
      exact bhSigVal_perm hfam alpha _ _
  have hsceq : r₁.sample_count = r₂.sample_count := by
    rw [hsc₁, hsc₂]
    exact hcontent.2.2
  have hmeteq : r₁.metrics = r₂.metrics := by
    rw [hmet₁, hmet₂, hcontent.1]
  have hraweq : r₁.raw_p_value = r₂.raw_p_value := by
    rw [hraw₁, hraw₂, hrawval]
  cases r₁
  cases r₂
  simp only at hsceq hmeteq hraweq hadjeq hsigeq
  simp [hsceq, hmeteq, hraweq, hadjeq, hsigeq]

/-- Closed witness for C6: a 1-sample segment ("b") and a repeated segment
("a") both appear among the output keys. -/
theorem C6_segments_complete_witness :
    ("b" ∈ (["a", "b", "a"] : List String))
    ∧ "b" ∈ (evaluate_segments (fun _ _ => 1/2) ["a", "b", "a"] [1, 0, 1] [1, 1, -1]
        .bonferroni (1/20)).map Prod.fst :=
  ⟨by simp,
    (C6_segments_complete (fun _ _ => 1/2) ["a", "b", "a"] [1, 0, 1] [1, 1, -1]
      .bonferroni (1/20)).2.1 "b" (by simp)⟩

/-- Closed witness for C10 on two sample orders of the same two-segment
data set. -/
theorem C10_segment_order_content_witness :
    ((∀ s : ℚ, ∀ d : ℕ, 0 ≤ (fun (_ : ℚ) (_ : ℕ) => (1 : ℚ)/2) s d)
      ∧ (["a", "b"] : List String).length = ([1, 0] : List ℤ).length
      ∧ (["a", "b"] : List String).length = ([1, 1] : List ℤ).length
      ∧ (["b", "a"] : List String).length = ([0, 1] : List ℤ).length
      ∧ (["b", "a"] : List String).length = ([1, 1] : List ℤ).length
      ∧ (segmentSamples ["a", "b"] [1, 0] [1, 1]).Perm
          (segmentSamples ["b", "a"] [0, 1] [1, 1]))
    ∧ (((evaluate_segments (fun _ _ => 1/2) ["a", "b"] [1, 0] [1, 1]
            .benjamini_hochberg (1/20)).map Prod.fst = firstAppear ["a", "b"]
        ∧ (firstAppear ["a", "b"]).Pairwise
            (fun a b => (["a", "b"] : List String).indexOf a
              < (["a", "b"] : List String).indexOf b))
      ∧ ∀ s : String, ∀ r₁ r₂ : SegmentResult,
          (s, r₁) ∈ evaluate_segments (fun _ _ => 1/2) ["a", "b"] [1, 0] [1, 1]
            .benjamini_hochberg (1/20) →
          (s, r₂) ∈ evaluate_segments (fun _ _ => 1/2) ["b", "a"] [0, 1] [1, 1]
            .benjamini_hochberg (1/20) →
          r₁ = r₂) := by
  have hperm : (segmentSamples ["a", "b"] [1, 0] [1, 1]).Perm
      (segmentSamples ["b", "a"] [0, 1] [1, 1]) := by
    have h₁ : segmentSamples ["a", "b"] [1, 0] [1, 1]
        = [("a", ((1 : ℤ), (1 : ℤ))), ("b", ((1 : ℤ), (0 : ℤ)))] := rfl
    have h₂ : segmentSamples ["b", "a"] [0, 1] [1, 1]
        = [("b", ((1 : ℤ), (0 : ℤ))), ("a", ((1 : ℤ), (1 : ℤ)))] := rfl
    rw [h₁, h₂]
    exact List.Perm.swap _ _ _
  exact ⟨⟨fun s d => by norm_num, rfl, rfl, rfl, rfl, hperm⟩,
    C10_segment_order_content (fun _ _ => 1/2) (fun s d => by norm_num)
      ["a", "b"] [1, 0] [1, 1] ["b", "a"] [0, 1] [1, 1]
      .benjamini_hochberg (1/20) rfl rfl rfl rfl hperm⟩

end FksEval
